import Mathlib

/-!
# Verification of the location-resolution core (`src/utils/location.ts`)

Shallow embedding of the location workflow of the community waste-reporting
app: street/city normalization (`normalizeStreetName`), street extraction
(`extractStreetName`), reverse geocoding (`reverseGeocode`), coordinate
acquisition (`getCurrentLocation`), the detection workflow (`detectLocation`),
manual validation (`validateManualLocation`), and the haversine distance
(`calculateDistance`).

Strings are modelled as `List Char`/`String`; the JavaScript case functions
(`toUpperCase`/`toLowerCase`) are modelled by `Char.toUpper`/`Char.toLower`,
which agree with them on the basic-latin (ASCII) range that all the
properties below quantify over.  Regex replacements are modelled by
fuel-indexed scanners that implement the exact word-boundary semantics of
the patterns in the source (`/,+/g`, `/\s+/g`, `/,\s*$/`, `/\bRd\b\.?/gi`,
…, `/\bM\.?G\.?\b/gi`); the fuel is always at least the length of the
scanned list plus one, so it never runs out.
-/

namespace WasteReport

/-! ## Character classes (ASCII, as used by the JS regexes) -/

/-- ASCII letter or digit. -/
def alnumCh (c : Char) : Bool :=
  (65 ≤ c.toNat && c.toNat ≤ 90) || (97 ≤ c.toNat && c.toNat ≤ 122) ||
    (48 ≤ c.toNat && c.toNat ≤ 57)

/-- Regex word character `\w` = `[A-Za-z0-9_]`. -/
def wordCh (c : Char) : Bool :=
  alnumCh c || c.toNat = 95

/-- Regex whitespace `\s` (ASCII part, as produced by JS strings here). -/
def spaceCh (c : Char) : Bool :=
  c.toNat = 32 || c.toNat = 9 || c.toNat = 10 || c.toNat = 13 ||
    c.toNat = 11 || c.toNat = 12

/-! ## Basic character lemmas -/

theorem toNat_ofNat_of_lt {n : Nat} (h : n < 55296) : (Char.ofNat n).toNat = n := by
  have hv : n.isValidChar := Or.inl h
  rw [Char.ofNat, dif_pos hv]
  cases hv with
  | inl h' => rfl
  | inr h' => rfl

theorem toUpper_toNat_of_lower {c : Char} (h1 : 97 ≤ c.toNat) (h2 : c.toNat ≤ 122) :
    (Char.toUpper c).toNat = c.toNat - 32 := by
  rw [Char.toUpper, if_pos ⟨h1, h2⟩]
  exact toNat_ofNat_of_lt (by omega)

theorem toUpper_of_not_lower {c : Char} (h : ¬(97 ≤ c.toNat ∧ c.toNat ≤ 122)) :
    Char.toUpper c = c := by
  rw [Char.toUpper, if_neg h]

theorem toLower_toNat_of_upper {c : Char} (h1 : 65 ≤ c.toNat) (h2 : c.toNat ≤ 90) :
    (Char.toLower c).toNat = c.toNat + 32 := by
  rw [Char.toLower, if_pos ⟨h1, h2⟩]
  exact toNat_ofNat_of_lt (by omega)

theorem toLower_of_not_upper {c : Char} (h : ¬(65 ≤ c.toNat ∧ c.toNat ≤ 90)) :
    Char.toLower c = c := by
  rw [Char.toLower, if_neg h]

theorem char_eq_of_toNat_eq {a b : Char} (h : a.toNat = b.toNat) : a = b := by
  have := congrArg Char.ofNat h
  rwa [Char.ofNat_toNat, Char.ofNat_toNat] at this

/-- `toUpper` is idempotent. -/
theorem toUpper_toUpper (c : Char) :
    Char.toUpper (Char.toUpper c) = Char.toUpper c := by
  by_cases hl : 97 ≤ c.toNat ∧ c.toNat ≤ 122
  · have hn := toUpper_toNat_of_lower hl.1 hl.2
    exact toUpper_of_not_lower (by omega)
  · rw [toUpper_of_not_lower hl, toUpper_of_not_lower hl]

/-- `toLower` is idempotent. -/
theorem toLower_toLower (c : Char) :
    Char.toLower (Char.toLower c) = Char.toLower c := by
  by_cases hu : 65 ≤ c.toNat ∧ c.toNat ≤ 90
  · have hn := toLower_toNat_of_upper hu.1 hu.2
    exact toLower_of_not_upper (by omega)
  · rw [toLower_of_not_upper hu, toLower_of_not_upper hu]

theorem alnum_toUpper {c : Char} (h : alnumCh c = true) :
    alnumCh (Char.toUpper c) = true := by
  simp only [alnumCh, Bool.or_eq_true, Bool.and_eq_true, decide_eq_true_eq] at h ⊢
  by_cases hl : 97 ≤ c.toNat ∧ c.toNat ≤ 122
  · have hn := toUpper_toNat_of_lower hl.1 hl.2
    omega
  · rw [toUpper_of_not_lower hl]
    omega

theorem alnum_toLower {c : Char} (h : alnumCh c = true) :
    alnumCh (Char.toLower c) = true := by
  simp only [alnumCh, Bool.or_eq_true, Bool.and_eq_true, decide_eq_true_eq] at h ⊢
  by_cases hu : 65 ≤ c.toNat ∧ c.toNat ≤ 90
  · have hn := toLower_toNat_of_upper hu.1 hu.2
    omega
  · rw [toLower_of_not_upper hu]
    omega

theorem wordCh_of_alnum {c : Char} (h : alnumCh c = true) : wordCh c = true := by
  simp [wordCh, h]

theorem not_space_of_alnum {c : Char} (h : alnumCh c = true) : spaceCh c = false := by
  simp only [alnumCh, Bool.or_eq_true, Bool.and_eq_true, decide_eq_true_eq] at h
  simp only [spaceCh, Bool.or_eq_false_iff, decide_eq_false_iff_not]
  omega

theorem ne_comma_of_alnum {c : Char} (h : alnumCh c = true) : c ≠ ',' := by
  intro he
  subst he
  simp [alnumCh] at h

/-! ## The normalization pipeline of `normalizeStreetName`

Each stage embeds one step of the method chain in the source:
`trim`, `/,+/g → ','`, `/\s+/g → ' '`, `split(' ')`, Title-Case mapping,
`join(' ')`, `/,\s*$/ → ''`, and the abbreviation replacements. -/

/-- `String.prototype.trim`: strip whitespace from both ends. -/
def trimChars (l : List Char) : List Char :=
  ((l.dropWhile spaceCh).reverse.dropWhile spaceCh).reverse

/-- `replace(/P+/g, o)` for a character class `p` with single-character
replacement `o`: collapse each maximal run of `p`-characters to one `o`.
The flag records whether the scanner is inside a run. -/
def collRuns (p : Char → Bool) (o : Char) : Bool → List Char → List Char
  | _, [] => []
  | inRun, c :: rest =>
    if p c then
      if inRun then collRuns p o true rest
      else o :: collRuns p o true rest
    else c :: collRuns p o false rest

/-- `split(' ')`: split at every single space character. -/
def splitSp : List Char → List (List Char)
  | [] => [[]]
  | c :: rest =>
    if c = ' ' then [] :: splitSp rest
    else
      match splitSp rest with
      | t :: ts => (c :: t) :: ts
      | [] => [[c]]

/-- `join(' ')`. -/
def joinSp : List (List Char) → List Char
  | [] => []
  | [t] => t
  | t :: ts => t ++ ' ' :: joinSp ts

/-- The per-word Title-Case step: words of length ≤ 3 that are already
all-uppercase are kept; otherwise first char upper, rest lower. -/
def titleWord (w : List Char) : List Char :=
  if w.length ≤ 3 ∧ w = w.map Char.toUpper then w
  else
    match w with
    | [] => []
    | c :: r => Char.toUpper c :: r.map Char.toLower

/-- `replace(/,\s*$/, '')`: remove one trailing comma together with the
whitespace following it. -/
def stripTrailComma (l : List Char) : List Char :=
  match (l.reverse).dropWhile spaceCh with
  | ',' :: rest => rest.reverse
  | _ => l

/-- Case-insensitive literal match: consume `pat` (given in lowercase)
from the front of the scanned list, returning the remainder. -/
def dropPatCI : List Char → List Char → Option (List Char)
  | [], s => some s
  | _ :: _, [] => none
  | p :: ps, c :: cs => if Char.toLower c = p then dropPatCI ps cs else none

/-- Is the next position a word boundary (end of input or non-word char)? -/
def boundaryA : List Char → Bool
  | [] => true
  | c :: _ => !wordCh c

/-- Scanner for `replace(/\b<pat>\b\.?/gi, rep)` where `pat = p0 :: ps` is a
lowercase letter word.  `prevW` records whether the previously scanned
character was a word character (for the leading `\b`); the fuel is
decremented once per step and always suffices. -/
def replWordGo (p0 : Char) (ps rep : List Char) : Nat → Bool → List Char → List Char
  | 0, _, l => l
  | _ + 1, _, [] => []
  | fuel + 1, prevW, c :: cs =>
    if !prevW && (Char.toLower c = p0) then
      match dropPatCI ps cs with
      | some rest =>
        if boundaryA rest then
          if rest.head? = some '.' then rep ++ replWordGo p0 ps rep fuel false rest.tail
          else rep ++ replWordGo p0 ps rep fuel true rest
        else c :: replWordGo p0 ps rep fuel (wordCh c) cs
      | none => c :: replWordGo p0 ps rep fuel (wordCh c) cs
    else c :: replWordGo p0 ps rep fuel (wordCh c) cs

/-- One abbreviation replacement pass over a whole string. -/
def replWordCh (pat rep l : List Char) : List Char :=
  match pat with
  | [] => l
  | p0 :: ps => replWordGo p0 ps rep (l.length + 1) false l

/-- Close the `/\bM\.?G\.?\b/gi` match after its `G`: greedily take a
trailing dot when the `\b` after it holds, otherwise require the `\b`
right after the `G`.  Returns the word-character flag for the last
consumed character and the remainder, or `none` when no match ends here. -/
def mgClose : List Char → Option (Bool × List Char)
  | [] => some (true, [])
  | c :: rest =>
    if c = '.' then
      match rest with
      | d :: rest' =>
        if wordCh d then some (false, d :: rest') else some (true, c :: d :: rest')
      | [] => some (true, [c])
    else if wordCh c then none
    else some (true, c :: rest)

/-- Match the tail `\.?G\.?\b` of the MG pattern (the part after the `M`). -/
def mgAfter : List Char → Option (Bool × List Char)
  | [] => none
  | c :: rest =>
    if c = '.' then
      match rest with
      | g :: rest2 => if Char.toLower g = 'g' then mgClose rest2 else none
      | [] => none
    else if Char.toLower c = 'g' then mgClose rest else none

/-- Scanner for `replace(/\bM\.?G\.?\b/gi, 'MG')`. -/
def replMGGo : Nat → Bool → List Char → List Char
  | 0, _, l => l
  | _ + 1, _, [] => []
  | fuel + 1, prevW, c :: cs =>
    if !prevW && (Char.toLower c = 'm') then
      match mgAfter cs with
      | some (w, rest) => 'M' :: 'G' :: replMGGo fuel w rest
      | none => c :: replMGGo fuel (wordCh c) cs
    else c :: replMGGo fuel (wordCh c) cs

/-- The MG replacement pass over a whole string. -/
def replMGCh (l : List Char) : List Char :=
  replMGGo (l.length + 1) false l

/-- The eight roadway abbreviation rules, in source order. -/
def abbrevRules : List (List Char × List Char) :=
  [(['r', 'd'], ['R', 'o', 'a', 'd']),
   (['s', 't'], ['S', 't', 'r', 'e', 'e', 't']),
   (['a', 'v', 'e'], ['A', 'v', 'e', 'n', 'u', 'e']),
   (['b', 'l', 'v', 'd'], ['B', 'o', 'u', 'l', 'e', 'v', 'a', 'r', 'd']),
   (['d', 'r'], ['D', 'r', 'i', 'v', 'e']),
   (['l', 'n'], ['L', 'a', 'n', 'e']),
   (['c', 't'], ['C', 'o', 'u', 'r', 't']),
   (['p', 'l'], ['P', 'l', 'a', 'c', 'e'])]

/-- `normalizeStreetName` on character lists, stage for stage as in the
source (the `if (!street) return ''` guard, then the method chain). -/
def normChars (s : List Char) : List Char :=
  if s = [] then []
  else
    replMGCh
      (abbrevRules.foldl (fun acc pr => replWordCh pr.1 pr.2 acc)
        (stripTrailComma
          (joinSp
            ((splitSp
                (collRuns spaceCh ' ' false
                  (collRuns (fun c => c = ',') ',' false (trimChars s)))).map
              titleWord))))

/-- `normalizeStreetName` on strings. -/
def normalizeStreetName (s : String) : String :=
  String.mk (normChars s.data)

/-! ## Data model of the workflow -/

/-- The `LocationState` union type. -/
inductive LocationState where
  | idle
  | requestingPermission
  | detecting
  | geocoding
  | success
  | permissionDenied
  | timeout
  | unsupported
  | geocodingFailed
  | error
deriving DecidableEq, Repr

/-- `LocationCoordinates`; the numeric fields are modelled as reals. -/
structure LocationCoordinates where
  latitude : ℝ
  longitude : ℝ
  accuracy : Option ℝ

/-- `LocationAddress`. -/
structure LocationAddress where
  street_name : String
  city : String
  state : Option String
  postal_code : Option String
  full_address : Option String

/-- `LocationResult`. -/
inductive LocationSource where
  | auto
  | manual
deriving DecidableEq, Repr

structure LocationResult where
  coordinates : LocationCoordinates
  address : LocationAddress
  source : LocationSource

/-- The raw geocoder address record (`data.address`): provider fields are
all optional strings; a missing field is `none`, and JS truthiness of a
present field is non-emptiness. -/
structure RawAddress where
  road : Option String := none
  street : Option String := none
  pedestrian : Option String := none
  footway : Option String := none
  path : Option String := none
  highway : Option String := none
  neighbourhood : Option String := none
  suburb : Option String := none
  district : Option String := none
  building : Option String := none
  city : Option String := none
  town : Option String := none
  village : Option String := none
  municipality : Option String := none
  county : Option String := none
  state : Option String := none
  postcode : Option String := none

/-- The geocoder HTTP response as observed by `reverseGeocode`:
`ok` is `response.ok`, `address` is `data.address` (absent when the JSON
carries no address object), `display_name` is `data.display_name`. -/
structure GeoResponse where
  ok : Bool
  address : Option RawAddress
  display_name : Option String

/-- Outcome of the `fetch`/`json()` calls: either a decoded response, or an
exception thrown before a response was decoded (`isError` tells whether the
thrown value was an `Error` instance carrying message `msg`). -/
inductive FetchOutcome where
  | resp (r : GeoResponse)
  | thrown (isError : Bool) (msg : String)

/-- Outcome of the platform `getCurrentPosition` callback: a position, or
an error with its numeric `code` (1 = permission denied,
2 = position unavailable, 3 = timeout). -/
inductive PositionOutcome where
  | pos (latitude longitude accuracy : ℝ)
  | err (code : Nat)

/-- JS truthiness of an optional string: present and non-empty. -/
def truthyO : Option String → Bool
  | none => false
  | some s => s ≠ ""

/-- `a || b` on optional strings (used for `address.suburb || address.neighbourhood`). -/
def orT (a b : Option String) : Option String :=
  if truthyO a then a else b

/-- `a || b` where the fallback is a plain string (the city chain). -/
def orS (a : Option String) (b : String) : String :=
  if truthyO a then a.getD "" else b

/-- `[..].filter(Boolean)` over optional strings, as the list of the truthy
values. -/
def truthyVals (l : List (Option String)) : List String :=
  (l.filter truthyO).map (fun o => o.getD "")

/-- `arr.join(' ')` on strings. -/
def joinSpStr (l : List String) : String :=
  String.mk (joinSp (l.map String.data))

/-! ## The operations -/

/-- `getCurrentLocation`'s result record. -/
structure CoordResult where
  data : Option LocationCoordinates
  error : Option LocationState

/-- `getCurrentLocation`: fails with `unsupported` when the capability is
absent (without consulting the platform outcome), otherwise maps the
platform callback.  The `switch` maps code 1 to `permission-denied`,
code 3 to `timeout`, and code 2 — like every other code — to the initial
`'error'` value. -/
def getCurrentLocation (supported : Bool) (o : PositionOutcome) : CoordResult :=
  if !supported then ⟨none, some .unsupported⟩
  else
    match o with
    | .pos la lo acc => ⟨some ⟨la, lo, some acc⟩, none⟩
    | .err code =>
      ⟨none, some (if code = 1 then .permissionDenied
                   else if code = 3 then .timeout
                   else .error)⟩

/-- `extractStreetName`: first truthy field among
road, street, pedestrian, footway, path, highway, normalized; otherwise the
normalized join of the truthy neighbourhood/suburb/district fields, or `""`. -/
def extractStreetName (a : RawAddress) : String :=
  match [a.road, a.street, a.pedestrian, a.footway, a.path, a.highway].find? truthyO with
  | some f => normalizeStreetName (f.getD "")
  | none =>
    let fb := joinSpStr (truthyVals [a.neighbourhood, a.suburb, a.district])
    if fb ≠ "" then normalizeStreetName fb else ""

/-- The city chain `address.city || town || village || municipality || county
|| 'Unknown City'`. -/
def cityOf (a : RawAddress) : String :=
  orS a.city (orS a.town (orS a.village (orS a.municipality
    (orS a.county "Unknown City"))))

/-- `reverseGeocode`'s result record. -/
structure GeoResult where
  data : Option LocationAddress
  error : Option String

/-- `reverseGeocode` as a function of the fetch outcome: the two explicit
`throw`s and any exception land in the `catch`, which returns an error
message instead of propagating. -/
def reverseGeocode (f : FetchOutcome) : GeoResult :=
  match f with
  | .thrown isErr msg =>
    ⟨none, some (if isErr then msg else "Failed to get address from location")⟩
  | .resp r =>
    if !r.ok then ⟨none, some "Geocoding service unavailable"⟩
    else
      match r.address with
      | none => ⟨none, some "No address found for this location"⟩
      | some a =>
        let s1 := extractStreetName a
        let s2 :=
          if s1 = "" then
            let comps := truthyVals [a.building, orT a.suburb a.neighbourhood]
            if 0 < comps.length then normalizeStreetName (joinSpStr comps) else s1
          else s1
        if s2 = "" then
          ⟨none, some "Unable to identify street name from location. Please enter manually."⟩
        else
          ⟨some { street_name := normalizeStreetName s2,
                  city := normalizeStreetName (cityOf a),
                  state := a.state,
                  postal_code := a.postcode,
                  full_address := r.display_name }, none⟩

/-- `getErrorMessage`. -/
def getErrorMessage (s : LocationState) : String :=
  match s with
  | .permissionDenied =>
    "Location permission denied. Please enable location access in your browser settings or enter the location manually."
  | .timeout =>
    "Location detection timed out. Please try again or enter the location manually."
  | .unsupported =>
    "Your browser does not support location detection. Please enter the location manually."
  | .geocodingFailed =>
    "Unable to identify street name from your location. Please enter it manually."
  | _ => "Unable to detect location. Please enter the location manually."

/-- `detectLocation`'s result record. -/
structure DetectResult where
  data : Option LocationResult
  error : Option String
  state : LocationState

/-- `detectLocation`: acquire coordinates, then reverse-geocode.  The JS
truthiness tests `coordError || !coordinates` and `geoError || !address`
are modelled exactly (an empty geocoding error message is falsy). -/
def detectLocation (supported : Bool) (po : PositionOutcome) (f : FetchOutcome) :
    DetectResult :=
  let c := getCurrentLocation supported po
  if c.error.isSome || c.data.isNone then
    ⟨none, some (getErrorMessage (c.error.getD .error)), c.error.getD .error⟩
  else
    match c.data with
    | none => ⟨none, some (getErrorMessage .error), .error⟩
    | some coords =>
      let g := reverseGeocode f
      if truthyO g.error || g.data.isNone then
        ⟨none,
         some (if truthyO g.error then g.error.getD "" else "Failed to determine address"),
         .geocodingFailed⟩
      else
        match g.data with
        | none => ⟨none, some "Failed to determine address", .geocodingFailed⟩
        | some addr => ⟨some ⟨coords, addr, .auto⟩, none, .success⟩

/-- `validateManualLocation`. -/
structure ValidationResult where
  valid : Bool
  error : Option String
deriving DecidableEq, Repr

def validateManualLocation (streetName city : String) : ValidationResult :=
  let trimmedStreet := String.mk (trimChars streetName.data)
  let trimmedCity := String.mk (trimChars city.data)
  if trimmedStreet = "" ∨ trimmedStreet.length < 3 then
    ⟨false, some "Please enter a valid street name (minimum 3 characters)"⟩
  else if trimmedCity = "" ∨ trimmedCity.length < 2 then
    ⟨false, some "Please enter a valid city name"⟩
  else ⟨true, none⟩

/-- The sequence of `locationState` values set by the caller's
`requestLocation` (initial `useState('idle')`, then `'detecting'`, then the
returned failure state or `'success'`). -/
def requestLocationTrace (supported : Bool) (po : PositionOutcome) (f : FetchOutcome) :
    List LocationState :=
  let r := detectLocation supported po f
  [.idle, .detecting, if truthyO r.error || r.data.isNone then r.state else .success]

/-! ## `calculateDistance` (haversine), idealized over the reals -/

noncomputable section

/-- `Math.atan2` (the JS/IEEE branch conventions, over the reals;
`atan2(0, 0) = 0`). -/
def atanTwo (y x : ℝ) : ℝ :=
  if 0 < x then Real.arctan (y / x)
  else if x < 0 then
    (if 0 ≤ y then Real.arctan (y / x) + Real.pi else Real.arctan (y / x) - Real.pi)
  else if 0 < y then Real.pi / 2
  else if y < 0 then -(Real.pi / 2)
  else 0

/-- The intermediate value `a` of `calculateDistance`:
`sin(dLat/2)² + cos(lat1)·cos(lat2)·sin(dLon/2)²` with
`dLat = (lat2−lat1)·π/180` and `dLon = (lon2−lon1)·π/180`. -/
def haverA (coord1 coord2 : LocationCoordinates) : ℝ :=
  Real.sin ((coord2.latitude - coord1.latitude) * Real.pi / 180 / 2) *
      Real.sin ((coord2.latitude - coord1.latitude) * Real.pi / 180 / 2) +
    Real.cos (coord1.latitude * Real.pi / 180) *
      Real.cos (coord2.latitude * Real.pi / 180) *
      Real.sin ((coord2.longitude - coord1.longitude) * Real.pi / 180 / 2) *
      Real.sin ((coord2.longitude - coord1.longitude) * Real.pi / 180 / 2)

/-- `calculateDistance`: the haversine great-circle distance with Earth
radius `R = 6371` km and `c = 2·atan2(√a, √(1−a))`, exactly as composed in
the source. -/
def calculateDistance (coord1 coord2 : LocationCoordinates) : ℝ :=
  6371 * (2 * atanTwo (Real.sqrt (haverA coord1 coord2))
    (Real.sqrt (1 - haverA coord1 coord2)))

end

/-! ## Token theory for the normalizer

On inputs made of ASCII letters, digits and spaces the pipeline acts
tokenwise; the lemmas below establish this and give the per-token
description used for the idempotence results. -/

/-- A character the restricted idempotence result ranges over. -/
def okCh (c : Char) : Bool := alnumCh c || c = ' '

/-- A word token: non-empty and alphanumeric. -/
def goodTok (t : List Char) : Prop := t ≠ [] ∧ ∀ c ∈ t, alnumCh c = true

def goodToks (ts : List (List Char)) : Prop := ∀ t ∈ ts, goodTok t

theorem okCh_space_iff {c : Char} (h : okCh c = true) :
    spaceCh c = true ↔ c = ' ' := by
  constructor
  · intro hs
    rcases Bool.or_eq_true _ _ |>.mp h with ha | he
    · exact absurd hs (by simp [not_space_of_alnum ha])
    · exact of_decide_eq_true he
  · intro he
    subst he
    decide

theorem okCh_alnum_of_not_space {c : Char} (h : okCh c = true) (hs : c ≠ ' ') :
    alnumCh c = true := by
  rcases Bool.or_eq_true _ _ |>.mp h with ha | he
  · exact ha
  · exact absurd (of_decide_eq_true he) hs

/-! ### `splitSp` and `joinSp` -/

theorem joinSp_cons_cons (t u : List Char) (ts : List (List Char)) :
    joinSp (t :: u :: ts) = t ++ ' ' :: joinSp (u :: ts) := rfl

theorem splitSp_ne_nil (l : List Char) : splitSp l ≠ [] := by
  cases l with
  | nil => simp [splitSp]
  | cons c rest =>
    rw [splitSp]
    split
    · simp
    · split <;> simp

theorem joinSp_splitSp (l : List Char) : joinSp (splitSp l) = l := by
  induction l with
  | nil => rfl
  | cons c rest ih =>
    rw [splitSp]
    split
    · rename_i hc
      subst hc
      have hne := splitSp_ne_nil rest
      cases h : splitSp rest with
      | nil => exact absurd h hne
      | cons t ts =>
        rw [h] at ih
        simp only [joinSp]
        cases ts <;> simp_all [joinSp]
    · cases h : splitSp rest with
      | nil => exact absurd h (splitSp_ne_nil rest)
      | cons t ts =>
        rw [h] at ih
        cases ts <;> simp_all [joinSp]

theorem mem_of_mem_splitSp {l : List Char} {t : List Char} {c : Char}
    (ht : t ∈ splitSp l) (hc : c ∈ t) : c ∈ l := by
  induction l generalizing t with
  | nil =>
    simp [splitSp] at ht
    subst ht
    simp at hc
  | cons d rest ih =>
    rw [splitSp] at ht
    split at ht
    · rcases List.mem_cons.mp ht with h | h
      · subst h; simp at hc
      · exact List.mem_cons_of_mem _ (ih h hc)
    · cases hsp : splitSp rest with
      | nil => exact absurd hsp (splitSp_ne_nil rest)
      | cons t' ts =>
        rw [hsp] at ht
        rcases List.mem_cons.mp ht with h | h
        · subst h
          rcases List.mem_cons.mp hc with h' | h'
          · subst h'; exact List.mem_cons_self _ _
          · refine List.mem_cons_of_mem _ (ih (t := t') ?_ h')
            rw [hsp]; exact List.mem_cons_self _ _
        · refine List.mem_cons_of_mem _ (ih (t := t) ?_ hc)
          rw [hsp]; exact List.mem_cons_of_mem _ h

theorem ne_space_of_mem_splitSp {l : List Char} {t : List Char} {c : Char}
    (ht : t ∈ splitSp l) (hc : c ∈ t) : c ≠ ' ' := by
  induction l generalizing t with
  | nil =>
    simp [splitSp] at ht
    subst ht
    simp at hc
  | cons d rest ih =>
    rw [splitSp] at ht
    split at ht
    · rcases List.mem_cons.mp ht with h | h
      · subst h; simp at hc
      · exact ih h hc
    · rename_i hd
      cases hsp : splitSp rest with
      | nil => exact absurd hsp (splitSp_ne_nil rest)
      | cons t' ts =>
        rw [hsp] at ht
        rcases List.mem_cons.mp ht with h | h
        · subst h
          rcases List.mem_cons.mp hc with h' | h'
          · subst h'; exact hd
          · refine ih (t := t') ?_ h'
            rw [hsp]; exact List.mem_cons_self _ _
        · refine ih (t := t) ?_ hc
          rw [hsp]; exact List.mem_cons_of_mem _ h

/-- Splitting a space-free list gives a single token. -/
theorem splitSp_of_no_space {t : List Char} (h : ∀ c ∈ t, c ≠ ' ') :
    splitSp t = [t] := by
  induction t with
  | nil => rfl
  | cons c rest ih =>
    rw [splitSp, if_neg (h c (List.mem_cons_self _ _))]
    rw [ih (fun c hc => h c (List.mem_cons_of_mem _ hc))]

/-- Splitting a token followed by a space separator peels off the token. -/
theorem splitSp_append_sep {t : List Char} (h : ∀ c ∈ t, c ≠ ' ') (r : List Char) :
    splitSp (t ++ ' ' :: r) = t :: splitSp r := by
  induction t with
  | nil => simp [splitSp]
  | cons c rest ih =>
    have hne : c ≠ ' ' := h c (List.mem_cons_self _ _)
    rw [List.cons_append, splitSp, if_neg hne,
      ih (fun c hc => h c (List.mem_cons_of_mem _ hc))]

/-- `splitSp` is a left inverse of `joinSp` on lists of space-free tokens. -/
theorem splitSp_joinSp {ts : List (List Char)} (hts : ts ≠ [])
    (h : ∀ t ∈ ts, ∀ c ∈ t, c ≠ ' ') : splitSp (joinSp ts) = ts := by
  induction ts with
  | nil => exact absurd rfl hts
  | cons t ts ih =>
    cases ts with
    | nil =>
      simp only [joinSp]
      exact splitSp_of_no_space (h t (List.mem_cons_self _ _))
    | cons t' ts' =>
      rw [joinSp_cons_cons, splitSp_append_sep (h t (List.mem_cons_self _ _)),
        ih (List.cons_ne_nil _ _) (fun u hu => h u (List.mem_cons_of_mem _ hu))]

theorem joinSp_ne_nil {ts : List (List Char)} {t : List Char}
    (ht : ts.head? = some t) (h : t ≠ []) : joinSp ts ≠ [] := by
  cases ts with
  | nil => simp at ht
  | cons u us =>
    simp only [List.head?_cons, Option.some.injEq] at ht
    subst ht
    cases us with
    | nil => simpa [joinSp]
    | cons v vs => simp [joinSp, h]

theorem mem_joinSp {ts : List (List Char)} {c : Char} (hc : c ∈ joinSp ts) :
    c = ' ' ∨ ∃ t ∈ ts, c ∈ t := by
  induction ts with
  | nil => simp [joinSp] at hc
  | cons t ts ih =>
    cases ts with
    | nil =>
      right
      exact ⟨t, List.mem_cons_self _ _, hc⟩
    | cons t' ts' =>
      rw [joinSp_cons_cons] at hc
      rcases List.mem_append.mp hc with h | h
      · right; exact ⟨t, List.mem_cons_self _ _, h⟩
      · rcases List.mem_cons.mp h with h' | h'
        · left; exact h'
        · rcases ih h' with h'' | ⟨u, hu, hcu⟩
          · left; exact h''
          · right; exact ⟨u, List.mem_cons_of_mem _ hu, hcu⟩

theorem joinSp_head? {ts : List (List Char)} {t : List Char} {c : Char}
    (hts : ts.head? = some t) (hc : t.head? = some c) :
    (joinSp ts).head? = some c := by
  cases ts with
  | nil => simp at hts
  | cons u us =>
    simp only [List.head?_cons, Option.some.injEq] at hts
    subst hts
    cases us with
    | nil => simpa [joinSp]
    | cons v vs =>
      rw [joinSp_cons_cons]
      cases u with
      | nil => simp at hc
      | cons d t' =>
        simp only [List.head?_cons, Option.some.injEq] at hc
        simpa using hc

theorem joinSp_getLast? {ts : List (List Char)} {t : List Char} {c : Char}
    (hts : ts.getLast? = some t) (hc : t.getLast? = some c) :
    (joinSp ts).getLast? = some c := by
  induction ts with
  | nil => simp at hts
  | cons u us ih =>
    cases us with
    | nil =>
      simp only [List.getLast?_singleton, Option.some.injEq] at hts
      subst hts
      simpa [joinSp]
    | cons v vs =>
      rw [joinSp_cons_cons]
      rw [List.getLast?_cons_cons] at hts
      have hX := ih hts
      have hsep : (' ' :: joinSp (v :: vs)) = [' '] ++ joinSp (v :: vs) := rfl
      rw [List.getLast?_append, hsep, List.getLast?_append, hX]
      rfl

/-! ### `collRuns` -/

theorem collRuns_cons_neg {p : Char → Bool} {o c : Char} {rest : List Char}
    (h : p c = false) (b : Bool) :
    collRuns p o b (c :: rest) = c :: collRuns p o false rest := by
  rw [collRuns, if_neg (by simp [h])]

theorem collRuns_eq_self {p : Char → Bool} {o : Char} {l : List Char}
    (h : ∀ c ∈ l, p c = false) (b : Bool) : collRuns p o b l = l := by
  induction l generalizing b with
  | nil => rfl
  | cons c rest ih =>
    rw [collRuns_cons_neg (h c (List.mem_cons_self _ _)),
      ih (fun c hc => h c (List.mem_cons_of_mem _ hc))]

theorem mem_collRuns {p : Char → Bool} {o : Char} {b : Bool} {l : List Char} {c : Char}
    (h : c ∈ collRuns p o b l) : c ∈ l ∨ c = o := by
  induction l generalizing b with
  | nil => simp [collRuns] at h
  | cons d rest ih =>
    rw [collRuns] at h
    split at h
    · split at h
      · rcases ih h with h' | h'
        · exact Or.inl (List.mem_cons_of_mem _ h')
        · exact Or.inr h'
      · rcases List.mem_cons.mp h with h' | h'
        · exact Or.inr h'
        · rcases ih h' with h'' | h''
          · exact Or.inl (List.mem_cons_of_mem _ h'')
          · exact Or.inr h''
    · rcases List.mem_cons.mp h with h' | h'
      · exact Or.inl (h' ▸ List.mem_cons_self _ _)
      · rcases ih h' with h'' | h''
        · exact Or.inl (List.mem_cons_of_mem _ h'')
        · exact Or.inr h''

/-- With the in-run flag set, the next emitted character ends the run. -/
theorem collRuns_head?_true {p : Char → Bool} {o : Char} {l : List Char} {c : Char}
    (h : (collRuns p o true l).head? = some c) : p c = false := by
  induction l with
  | nil => simp [collRuns] at h
  | cons d rest ih =>
    rw [collRuns] at h
    split at h
    · exact ih h
    · rename_i hd
      simp only [List.head?_cons, Option.some.injEq] at h
      subst h
      simpa using hd

theorem collRuns_head? {p : Char → Bool} {o : Char} {b : Bool} {l : List Char} {c : Char}
    (hl : l.head? = some c) (hc : p c = false) :
    (collRuns p o b l).head? = some c := by
  cases l with
  | nil => simp at hl
  | cons d rest =>
    simp only [List.head?_cons, Option.some.injEq] at hl
    subst hl
    rw [collRuns_cons_neg hc]
    rfl

theorem collRuns_getLast? {p : Char → Bool} {o : Char} {b : Bool} {l : List Char} {c : Char}
    (hl : l.getLast? = some c) (hc : p c = false) :
    (collRuns p o b l).getLast? = some c := by
  induction l generalizing b with
  | nil => simp at hl
  | cons d rest ih =>
    cases rest with
    | nil =>
      simp only [List.getLast?_singleton, Option.some.injEq] at hl
      subst hl
      rw [collRuns_cons_neg hc]
      rfl
    | cons e rest' =>
      rw [List.getLast?_cons_cons] at hl
      have hX := ih (b := true) hl
      have hX' := ih (b := false) hl
      rw [collRuns]
      split
      · split
        · exact hX
        · have hne : collRuns p o true (e :: rest') ≠ [] := by
            intro hnil
            rw [hnil] at hX
            simp at hX
          have : (o :: collRuns p o true (e :: rest')) =
              [o] ++ collRuns p o true (e :: rest') := rfl
          rw [this, List.getLast?_append, hX]
          rfl
      · have : (d :: collRuns p o false (e :: rest')) =
            [d] ++ collRuns p o false (e :: rest') := rfl
        rw [this, List.getLast?_append, hX']
        rfl

/-- No two adjacent (JS-)whitespace characters. -/
def noDblSp : List Char → Prop
  | [] => True
  | [_] => True
  | a :: b :: r => ¬(spaceCh a = true ∧ spaceCh b = true) ∧ noDblSp (b :: r)

theorem noDblSp_cons {a : Char} {l : List Char} :
    noDblSp (a :: l) ↔
      (∀ b, l.head? = some b → ¬(spaceCh a = true ∧ spaceCh b = true)) ∧ noDblSp l := by
  cases l with
  | nil => simp [noDblSp]
  | cons b r =>
    simp only [noDblSp, List.head?_cons]
    constructor
    · rintro ⟨h1, h2⟩
      exact ⟨fun b' hb' => (Option.some_inj.mp hb') ▸ h1, h2⟩
    · rintro ⟨h1, h2⟩
      exact ⟨h1 b rfl, h2⟩

/-- The whitespace-collapsing pass leaves no adjacent whitespace. -/
theorem collRuns_noDblSp (l : List Char) (b : Bool) :
    noDblSp (collRuns spaceCh ' ' b l) := by
  induction l generalizing b with
  | nil => trivial
  | cons c rest ih =>
    rw [collRuns]
    split
    · split
      · exact ih true
      · rw [noDblSp_cons]
        refine ⟨fun b' hb' h => ?_, ih true⟩
        have := collRuns_head?_true hb'
        rw [this] at h
        exact absurd h.2 (by simp)
    · rename_i hc
      rw [noDblSp_cons]
      refine ⟨fun b' hb' h => ?_, ih false⟩
      rw [Bool.not_eq_true] at hc
      rw [hc] at h
      exact absurd h.1 (by simp)

/-- Collapsing is the identity on strings whose whitespace is already
isolated single `' '` characters (with no leading whitespace when the
run flag is set). -/
theorem collRuns_id_of_sep : ∀ (l : List Char) (b : Bool), noDblSp l →
    (∀ c ∈ l, spaceCh c = true → c = ' ') →
    (b = true → ∀ c, l.head? = some c → spaceCh c = false) →
    collRuns spaceCh ' ' b l = l := by
  intro l
  induction l with
  | nil => intro b _ _ _; rfl
  | cons c rest ih =>
    intro b hdbl hsp hflag
    by_cases hc : spaceCh c = true
    · have hb : b = false := by
        cases b with
        | false => rfl
        | true => exact absurd (hflag rfl c rfl) (by simp [hc])
      subst hb
      have hce : c = ' ' := hsp c (List.mem_cons_self _ _) hc
      rw [collRuns, if_pos hc]
      simp only [Bool.false_eq_true, if_false]
      rw [hce]
      congr 1
      exact ih true ((noDblSp_cons.mp hdbl).2)
        (fun d hd => hsp d (List.mem_cons_of_mem _ hd))
        (fun _ d hd => by
          by_contra hne
          rw [Bool.not_eq_false] at hne
          exact (noDblSp_cons.mp hdbl).1 d hd ⟨hc, hne⟩)
    · rw [Bool.not_eq_true] at hc
      rw [collRuns_cons_neg hc]
      congr 1
      exact ih false ((noDblSp_cons.mp hdbl).2)
        (fun d hd => hsp d (List.mem_cons_of_mem _ hd)) (by simp)

/-! ### `trimChars` -/

theorem head?_dropWhileCh {p : Char → Bool} {l : List Char} {c : Char}
    (h : (l.dropWhile p).head? = some c) : p c = false := by
  have := List.head?_dropWhile_not p l
  rw [h] at this
  exact this

theorem getLast?_dropWhile_of_ne_nil {p : Char → Bool} {l : List Char}
    (h : l.dropWhile p ≠ []) : (l.dropWhile p).getLast? = l.getLast? := by
  induction l with
  | nil => simp at h
  | cons c rest ih =>
    rw [List.dropWhile_cons]
    split
    · rename_i hc
      rw [List.dropWhile_cons, if_pos hc] at h
      have hrest : rest ≠ [] := by
        intro hr
        rw [hr] at h
        simp at h
      cases rest with
      | nil => exact absurd rfl hrest
      | cons e r' => rw [List.getLast?_cons_cons]; exact ih h
    · rfl

theorem trim_head? {l : List Char} {c : Char}
    (h : (trimChars l).head? = some c) : spaceCh c = false := by
  rw [trimChars] at h
  set X := l.dropWhile spaceCh with hX
  set Y := X.reverse.dropWhile spaceCh with hY
  rw [List.head?_reverse] at h
  have hYne : Y ≠ [] := by
    intro hnil
    rw [hnil] at h
    simp at h
  rw [hY, getLast?_dropWhile_of_ne_nil (hY ▸ hYne), List.getLast?_reverse] at h
  exact head?_dropWhileCh h

theorem trim_getLast? {l : List Char} {c : Char}
    (h : (trimChars l).getLast? = some c) : spaceCh c = false := by
  rw [trimChars, List.getLast?_reverse] at h
  exact head?_dropWhileCh h

theorem mem_trim {l : List Char} {c : Char} (h : c ∈ trimChars l) : c ∈ l := by
  rw [trimChars] at h
  rw [List.mem_reverse] at h
  have h1 := List.dropWhile_subset (l := (l.dropWhile spaceCh).reverse) spaceCh h
  rw [List.mem_reverse] at h1
  exact List.dropWhile_subset (l := l) spaceCh h1

theorem mem_dropWhile_of_neg {p : Char → Bool} {l : List Char} {c : Char}
    (hc : c ∈ l) (hp : p c = false) : c ∈ l.dropWhile p := by
  induction l with
  | nil => simp at hc
  | cons d rest ih =>
    rw [List.dropWhile_cons]
    split
    · rename_i hd
      rcases List.mem_cons.mp hc with h | h
      · subst h
        rw [hd] at hp
        simp at hp
      · exact ih h
    · exact hc

theorem mem_trim_of_not_space {l : List Char} {c : Char}
    (hc : c ∈ l) (hs : spaceCh c = false) : c ∈ trimChars l := by
  rw [trimChars, List.mem_reverse]
  refine mem_dropWhile_of_neg ?_ hs
  rw [List.mem_reverse]
  exact mem_dropWhile_of_neg hc hs

/-! ### The replacement scanners -/

theorem dropPatCI_length : ∀ {ps cs rest : List Char},
    dropPatCI ps cs = some rest → rest.length ≤ cs.length := by
  intro ps
  induction ps with
  | nil =>
    intro cs rest h
    simp only [dropPatCI, Option.some.injEq] at h
    subst h
    exact Nat.le_refl _
  | cons p ps ih =>
    intro cs rest h
    cases cs with
    | nil => simp [dropPatCI] at h
    | cons c cs' =>
      rw [dropPatCI] at h
      split at h
      · exact Nat.le_succ_of_le (ih h)
      · simp at h

/-- The word scanner ignores the exact fuel value as long as it exceeds
the length of the scanned list. -/
theorem replWordGo_fuel {p0 : Char} {ps rep : List Char} :
    ∀ (f1 : Nat) (l : List Char) (f2 : Nat) (b : Bool), l.length < f1 → l.length < f2 →
      replWordGo p0 ps rep f1 b l = replWordGo p0 ps rep f2 b l := by
  intro f1
  induction f1 with
  | zero => intro l f2 b h1 _; omega
  | succ n ih =>
    intro l f2 b h1 h2
    cases l with
    | nil =>
      cases f2 with
      | zero => omega
      | succ m => rfl
    | cons c cs =>
      cases f2 with
      | zero => omega
      | succ m =>
        simp only [List.length_cons] at h1 h2
        simp only [replWordGo]
        split
        · cases hd : dropPatCI ps cs with
          | none =>
            simp only [hd]
            rw [ih cs m _ (by omega) (by omega)]
          | some rest =>
            have hlen := dropPatCI_length hd
            simp only [hd]
            split
            · split
              · have htl : rest.tail.length ≤ rest.length := by
                  cases rest <;> simp
                rw [ih rest.tail m _ (by omega) (by omega)]
              · rw [ih rest m _ (by omega) (by omega)]
            · rw [ih cs m _ (by omega) (by omega)]
        · rw [ih cs m _ (by omega) (by omega)]

theorem mgClose_nil : mgClose [] = some (true, []) := rfl

theorem mgClose_dot_nil : mgClose ['.'] = some (true, ['.']) := rfl

theorem mgClose_dot_cons (d : Char) (rest' : List Char) :
    mgClose ('.' :: d :: rest') =
      (if wordCh d then some (false, d :: rest')
       else some (true, '.' :: d :: rest')) := rfl

theorem mgClose_ndot {c : Char} (h : c ≠ '.') (rest : List Char) :
    mgClose (c :: rest) = (if wordCh c then none else some (true, c :: rest)) := by
  rw [mgClose.eq_def]
  simp only [if_neg h]

theorem mgAfter_nil : mgAfter [] = none := rfl

theorem mgAfter_dot_nil : mgAfter ['.'] = none := rfl

theorem mgAfter_dot_cons (g : Char) (rest2 : List Char) :
    mgAfter ('.' :: g :: rest2) =
      (if Char.toLower g = 'g' then mgClose rest2 else none) := rfl

theorem mgAfter_ndot {c : Char} (h : c ≠ '.') (rest : List Char) :
    mgAfter (c :: rest) =
      (if Char.toLower c = 'g' then mgClose rest else none) := by
  rw [mgAfter.eq_def]
  simp only [if_neg h]

theorem mgClose_length : ∀ {l : List Char} {w : Bool} {r : List Char},
    mgClose l = some (w, r) → r.length ≤ l.length := by
  intro l w r h
  cases l with
  | nil =>
    rw [mgClose_nil] at h
    simp only [Option.some.injEq, Prod.mk.injEq] at h
    simp [← h.2]
  | cons c rest =>
    by_cases hc : c = '.'
    · subst hc
      cases rest with
      | nil =>
        rw [mgClose_dot_nil] at h
        simp only [Option.some.injEq, Prod.mk.injEq] at h
        simp [← h.2]
      | cons d rest' =>
        rw [mgClose_dot_cons] at h
        split at h <;>
          (simp only [Option.some.injEq, Prod.mk.injEq] at h; simp [← h.2])
    · rw [mgClose_ndot hc] at h
      split at h
      · simp at h
      · simp only [Option.some.injEq, Prod.mk.injEq] at h
        simp [← h.2]

theorem mgAfter_length : ∀ {cs : List Char} {w : Bool} {r : List Char},
    mgAfter cs = some (w, r) → r.length ≤ cs.length := by
  intro cs w r h
  cases cs with
  | nil => rw [mgAfter_nil] at h; simp at h
  | cons c rest =>
    by_cases hc : c = '.'
    · subst hc
      cases rest with
      | nil => rw [mgAfter_dot_nil] at h; simp at h
      | cons g rest2 =>
        rw [mgAfter_dot_cons] at h
        split at h
        · have := mgClose_length h
          simp only [List.length_cons]
          omega
        · simp at h
    · rw [mgAfter_ndot hc] at h
      split at h
      · have := mgClose_length h
        simp only [List.length_cons]
        omega
      · simp at h

/-- Same fuel-irrelevance for the MG scanner. -/
theorem replMGGo_fuel :
    ∀ (f1 : Nat) (l : List Char) (f2 : Nat) (b : Bool), l.length < f1 → l.length < f2 →
      replMGGo f1 b l = replMGGo f2 b l := by
  intro f1
  induction f1 with
  | zero => intro l f2 b h1 _; omega
  | succ n ih =>
    intro l f2 b h1 h2
    cases l with
    | nil =>
      cases f2 with
      | zero => omega
      | succ m => rfl
    | cons c cs =>
      cases f2 with
      | zero => omega
      | succ m =>
        simp only [List.length_cons] at h1 h2
        simp only [replMGGo]
        split
        · cases hd : mgAfter cs with
          | none =>
            simp only [hd]
            rw [ih cs m _ (by omega) (by omega)]
          | some pr =>
            obtain ⟨w, rest⟩ := pr
            have hlen : rest.length ≤ cs.length := mgAfter_length hd
            simp only [hd]
            rw [ih rest m _ (by omega) (by omega)]
        · rw [ih cs m _ (by omega) (by omega)]

/-! ### Tokenwise behaviour of the word-replacement passes -/

/-- What follows a token inside a `joinSp` image: nothing, or a space. -/
def sepR (r : List Char) : Prop := r = [] ∨ r.head? = some ' '

/-- A lowercase-letter pattern, as all eight abbreviation patterns are. -/
def lowPat (ps : List Char) : Prop := ∀ x ∈ ps, 97 ≤ x.toNat ∧ x.toNat ≤ 122

theorem boundaryA_sep {r : List Char} (h : sepR r) : boundaryA r = true := by
  rcases h with h | h
  · subst h; rfl
  · cases r with
    | nil => simp at h
    | cons c r' =>
      simp only [List.head?_cons, Option.some.injEq] at h
      subst h
      simp only [boundaryA]
      decide

theorem sep_head_ne_dot {r : List Char} (h : sepR r) : r.head? ≠ some '.' := by
  rcases h with h | h
  · subst h; simp
  · rw [h]; decide

/-- With the previous character a word character, a run of word characters
is copied verbatim. -/
theorem replWordGo_wordrun {p0 : Char} {ps rep : List Char} :
    ∀ (t : List Char), (∀ c ∈ t, wordCh c = true) →
    ∀ (r : List Char) (f : Nat), t.length + r.length < f →
    replWordGo p0 ps rep f true (t ++ r) =
      t ++ replWordGo p0 ps rep (r.length + 1) true r := by
  intro t
  induction t with
  | nil =>
    intro _ r f hf
    simp only [List.nil_append, List.length_nil] at hf ⊢
    exact replWordGo_fuel f r _ true (by omega) (by omega)
  | cons c t' ih =>
    intro hw r f hf
    cases f with
    | zero => simp at hf
    | succ n =>
      simp only [List.cons_append, replWordGo, Bool.not_true, Bool.false_and,
        Bool.false_eq_true, if_false, List.append_eq]
      rw [hw c (List.mem_cons_self _ _)]
      simp only [List.length_cons] at hf
      rw [ih (fun d hd => hw d (List.mem_cons_of_mem _ hd)) r n (by omega)]

/-- Scanning a space while inside word context resets the boundary flag. -/
theorem replWordGo_sep_step {p0 : Char} {ps rep : List Char} :
    ∀ (J : List Char) (f : Nat), J.length + 1 < f →
    replWordGo p0 ps rep f true (' ' :: J) =
      ' ' :: replWordGo p0 ps rep (J.length + 1) false J := by
  intro J f hf
  cases f with
  | zero => simp at hf
  | succ n =>
    simp only [replWordGo, Bool.not_true, Bool.false_and, Bool.false_eq_true, if_false]
    rw [show wordCh ' ' = false from by decide]
    rw [replWordGo_fuel n J (J.length + 1) false (by omega) (by omega)]

/-- Consuming a fully lowered prefix. -/
theorem dropPatCI_of_lower : ∀ {t' : List Char} {ps : List Char} (r : List Char),
    t'.map Char.toLower = ps → dropPatCI ps (t' ++ r) = some r := by
  intro t'
  induction t' with
  | nil =>
    intro ps r h
    simp only [List.map_nil] at h
    subst h
    rfl
  | cons d t'' ih =>
    intro ps r h
    simp only [List.map_cons] at h
    subst h
    simp only [List.cons_append, dropPatCI, if_pos rfl]
    exact ih r rfl

/-- When the token does not spell the pattern, the pattern match from the
token start either fails or ends inside the token (no word boundary). -/
theorem dropPatCI_no_match : ∀ {ps : List Char} {t' r : List Char},
    lowPat ps → (∀ c ∈ t', alnumCh c = true) → sepR r →
    ¬(t'.map Char.toLower = ps) →
    dropPatCI ps (t' ++ r) = none ∨
      ∃ rest, dropPatCI ps (t' ++ r) = some rest ∧ boundaryA rest = false := by
  intro ps
  induction ps with
  | nil =>
    intro t' r _ ha hsep hnm
    cases t' with
    | nil => exact absurd rfl hnm
    | cons d t'' =>
      right
      refine ⟨d :: (t'' ++ r), rfl, ?_⟩
      simp only [boundaryA]
      rw [wordCh_of_alnum (ha d (List.mem_cons_self _ _))]
      rfl
  | cons q ps' ih =>
    intro t' r hp ha hsep hnm
    cases t' with
    | nil =>
      left
      rcases hsep with h | h
      · subst h; rfl
      · cases r with
        | nil => simp at h
        | cons c r2 =>
          simp only [List.head?_cons, Option.some.injEq] at h
          subst h
          simp only [List.nil_append, dropPatCI]
          rw [if_neg]
          intro he
          have hq := hp q (List.mem_cons_self _ _)
          have : (' ' : Char).toLower.toNat = q.toNat := congrArg Char.toNat he
          rw [show (' ' : Char).toLower.toNat = 32 from by decide] at this
          omega
    | cons d t'' =>
      simp only [List.cons_append, dropPatCI]
      by_cases hd : Char.toLower d = q
      · rw [if_pos hd]
        refine ih (fun x hx => hp x (List.mem_cons_of_mem _ hx))
          (fun c hc => ha c (List.mem_cons_of_mem _ hc)) hsep ?_
        intro he
        exact hnm (by simp [he, hd])
      · rw [if_neg hd]
        exact Or.inl rfl

/-- A token that does not spell the pattern passes through unchanged. -/
theorem replWordGo_skip_tok {p0 : Char} {ps rep : List Char}
    (hp : lowPat (p0 :: ps)) :
    ∀ (t : List Char), goodTok t → ¬(t.map Char.toLower = p0 :: ps) →
    ∀ (r : List Char), sepR r → ∀ (f : Nat), (t ++ r).length < f →
    replWordGo p0 ps rep f false (t ++ r) =
      t ++ replWordGo p0 ps rep (r.length + 1) true r := by
  intro t ht hnm r hsep f hf
  obtain ⟨hne, ha⟩ := ht
  cases t with
  | nil => exact absurd rfl hne
  | cons c t' =>
    cases f with
    | zero => simp at hf
    | succ n =>
      simp only [List.length_append, List.length_cons] at hf
      simp only [List.cons_append, replWordGo, Bool.not_false, Bool.true_and,
        List.append_eq]
      have hwc : wordCh c = true := wordCh_of_alnum (ha c (List.mem_cons_self _ _))
      have hrun := @replWordGo_wordrun p0 ps rep t'
        (fun d hd => wordCh_of_alnum (ha d (List.mem_cons_of_mem _ hd))) r n
        (by omega)
      by_cases hc : Char.toLower c = p0
      · rw [if_pos (by simp [hc])]
        have hnm' : ¬(t'.map Char.toLower = ps) := by
          intro he
          exact hnm (by simp [he, hc])
        rcases @dropPatCI_no_match ps t' r
            (fun x hx => hp x (List.mem_cons_of_mem _ hx))
            (fun d hd => ha d (List.mem_cons_of_mem _ hd)) hsep hnm' with hd | ⟨rest, hd, hb⟩
        · rw [hd]
          rw [hwc, hrun]
        · rw [hd]
          simp only [hb, Bool.false_eq_true, if_false]
          rw [hwc, hrun]
      · rw [if_neg (by simp [hc])]
        rw [hwc, hrun]

/-- A token that spells the pattern (case-insensitively) is replaced. -/
theorem replWordGo_match_tok {p0 : Char} {ps rep : List Char} :
    ∀ (t : List Char), t.map Char.toLower = p0 :: ps →
    ∀ (r : List Char), sepR r → ∀ (f : Nat), (t ++ r).length < f →
    replWordGo p0 ps rep f false (t ++ r) =
      rep ++ replWordGo p0 ps rep (r.length + 1) true r := by
  intro t hm r hsep f hf
  cases t with
  | nil => simp at hm
  | cons c t' =>
    simp only [List.map_cons, List.cons.injEq] at hm
    cases f with
    | zero => simp at hf
    | succ n =>
      simp only [List.length_append, List.length_cons] at hf
      simp only [List.cons_append, replWordGo, Bool.not_false, Bool.true_and,
        List.append_eq]
      rw [if_pos (by simp [hm.1])]
      rw [dropPatCI_of_lower r hm.2]
      simp only [boundaryA_sep hsep, if_true]
      rw [if_neg (sep_head_ne_dot hsep)]
      rw [replWordGo_fuel n r (r.length + 1) true (by omega) (by omega)]

/-- Per-token model of one abbreviation replacement. -/
def tokRep (pat rep t : List Char) : List Char :=
  if t.map Char.toLower = pat then rep else t

/-- One word-replacement pass acts tokenwise on a join of word tokens. -/
theorem replWordCh_joinSp {p0 : Char} {ps rep : List Char}
    (hp : lowPat (p0 :: ps)) :
    ∀ (vs : List (List Char)), goodToks vs →
    replWordCh (p0 :: ps) rep (joinSp vs) =
      joinSp (vs.map (tokRep (p0 :: ps) rep)) := by
  intro vs
  induction vs with
  | nil => intro _; rfl
  | cons t vs' ih =>
    intro hg
    have hgt : goodTok t := hg t (List.mem_cons_self _ _)
    cases vs' with
    | nil =>
      simp only [joinSp, List.map_cons, List.map_nil]
      rw [show replWordCh (p0 :: ps) rep t =
          replWordGo p0 ps rep (t.length + 1) false (t ++ []) from by
        simp [replWordCh]]
      by_cases hm : t.map Char.toLower = p0 :: ps
      · rw [replWordGo_match_tok t hm [] (Or.inl rfl) _ (by simp)]
        simp [tokRep, hm, replWordGo]
      · rw [replWordGo_skip_tok hp t hgt hm [] (Or.inl rfl) _ (by simp)]
        simp [tokRep, hm, replWordGo]
    | cons v vs'' =>
      rw [joinSp_cons_cons]
      set J := joinSp (v :: vs'') with hJ
      have hsep : sepR (' ' :: J) := Or.inr rfl
      have hstep := @replWordGo_sep_step p0 ps rep J
        ((' ' :: J).length + 1) (by simp)
      have hrest : replWordGo p0 ps rep (J.length + 1) false J =
          replWordCh (p0 :: ps) rep J := by simp [replWordCh]
      by_cases hm : t.map Char.toLower = p0 :: ps
      · rw [show replWordCh (p0 :: ps) rep (t ++ ' ' :: J) =
            replWordGo p0 ps rep ((t ++ ' ' :: J).length + 1) false (t ++ ' ' :: J)
            from rfl]
        rw [replWordGo_match_tok t hm (' ' :: J) hsep _ (by omega)]
        rw [hstep, hrest, ih (fun u hu => hg u (List.mem_cons_of_mem _ hu))]
        simp only [List.map_cons, joinSp_cons_cons, tokRep, hm, if_pos]
      · rw [show replWordCh (p0 :: ps) rep (t ++ ' ' :: J) =
            replWordGo p0 ps rep ((t ++ ' ' :: J).length + 1) false (t ++ ' ' :: J)
            from rfl]
        rw [replWordGo_skip_tok hp t hgt hm (' ' :: J) hsep _ (by omega)]
        rw [hstep, hrest, ih (fun u hu => hg u (List.mem_cons_of_mem _ hu))]
        simp only [List.map_cons, joinSp_cons_cons, tokRep, hm, if_neg]
        simp [tokRep, hm]

/-! ### Tokenwise behaviour of the MG pass -/

theorem ne_dot_of_alnum {c : Char} (h : alnumCh c = true) : c ≠ '.' := by
  intro he
  subst he
  simp [alnumCh] at h

theorem ne_dot_of_toLower_g {c : Char} (h : Char.toLower c = 'g') : c ≠ '.' := by
  intro he
  subst he
  simp at h

theorem replMGGo_wordrun :
    ∀ (t : List Char), (∀ c ∈ t, wordCh c = true) →
    ∀ (r : List Char) (f : Nat), t.length + r.length < f →
    replMGGo f true (t ++ r) = t ++ replMGGo (r.length + 1) true r := by
  intro t
  induction t with
  | nil =>
    intro _ r f hf
    simp only [List.nil_append, List.length_nil] at hf ⊢
    exact replMGGo_fuel f r _ true (by omega) (by omega)
  | cons c t' ih =>
    intro hw r f hf
    cases f with
    | zero => simp at hf
    | succ n =>
      simp only [List.cons_append, replMGGo, Bool.not_true, Bool.false_and,
        Bool.false_eq_true, if_false, List.append_eq]
      rw [hw c (List.mem_cons_self _ _)]
      simp only [List.length_cons] at hf
      rw [ih (fun d hd => hw d (List.mem_cons_of_mem _ hd)) r n (by omega)]

theorem replMGGo_sep_step :
    ∀ (J : List Char) (f : Nat), J.length + 1 < f →
    replMGGo f true (' ' :: J) = ' ' :: replMGGo (J.length + 1) false J := by
  intro J f hf
  cases f with
  | zero => simp at hf
  | succ n =>
    simp only [replMGGo, Bool.not_true, Bool.false_and, Bool.false_eq_true, if_false]
    rw [show wordCh ' ' = false from by decide]
    rw [replMGGo_fuel n J (J.length + 1) false (by omega) (by omega)]

/-- After an `m`/`M` that starts a token not spelling "mg", the rest of the
MG pattern fails to match. -/
theorem mgAfter_tok_none {t' r : List Char}
    (ha : ∀ c ∈ t', alnumCh c = true) (hsep : sepR r)
    (hnm : ¬(t'.map Char.toLower = ['g'])) : mgAfter (t' ++ r) = none := by
  cases t' with
  | nil =>
    rcases hsep with h | h
    · subst h; rfl
    · cases r with
      | nil => simp at h
      | cons c r2 =>
        simp only [List.head?_cons, Option.some.injEq] at h
        subst h
        rw [List.nil_append, mgAfter_ndot (by decide)]
        rw [if_neg (by decide)]
  | cons d t'' =>
    have hd : d ≠ '.' := ne_dot_of_alnum (ha d (List.mem_cons_self _ _))
    rw [List.cons_append, mgAfter_ndot hd]
    by_cases hg : Char.toLower d = 'g'
    · rw [if_pos hg]
      cases t'' with
      | nil => exact absurd (by simp [hg]) hnm
      | cons e t''' =>
        have he : e ≠ '.' := ne_dot_of_alnum (ha e (List.mem_cons_of_mem _ (List.mem_cons_self _ _)))
        rw [List.cons_append, mgClose_ndot he]
        rw [if_pos (wordCh_of_alnum (ha e (List.mem_cons_of_mem _ (List.mem_cons_self _ _))))]
    · rw [if_neg hg]

/-- After the `m`/`M` of a token spelling exactly "mg", the MG pattern
matches up to the following separator. -/
theorem mgAfter_tok_match {t' r : List Char}
    (hm : t'.map Char.toLower = ['g']) (hsep : sepR r) :
    mgAfter (t' ++ r) = some (true, r) := by
  cases t' with
  | nil => simp at hm
  | cons g t'' =>
    simp only [List.map_cons, List.cons.injEq] at hm
    have ht'' : t'' = [] := by
      cases t'' with
      | nil => rfl
      | cons e t''' => simp at hm
    subst ht''
    rw [show ([g] ++ r) = g :: r from rfl, mgAfter_ndot (ne_dot_of_toLower_g hm.1)]
    rw [if_pos hm.1]
    rcases hsep with h | h
    · subst h; rfl
    · cases r with
      | nil => simp at h
      | cons c r2 =>
        simp only [List.head?_cons, Option.some.injEq] at h
        subst h
        rw [mgClose_ndot (by decide)]
        rw [if_neg (by decide)]

theorem replMGGo_skip_tok :
    ∀ (t : List Char), goodTok t → ¬(t.map Char.toLower = ['m', 'g']) →
    ∀ (r : List Char), sepR r → ∀ (f : Nat), (t ++ r).length < f →
    replMGGo f false (t ++ r) = t ++ replMGGo (r.length + 1) true r := by
  intro t ht hnm r hsep f hf
  obtain ⟨hne, ha⟩ := ht
  cases t with
  | nil => exact absurd rfl hne
  | cons c t' =>
    cases f with
    | zero => simp at hf
    | succ n =>
      simp only [List.length_append, List.length_cons] at hf
      simp only [List.cons_append, replMGGo, Bool.not_false, Bool.true_and,
        List.append_eq]
      have hwc : wordCh c = true := wordCh_of_alnum (ha c (List.mem_cons_self _ _))
      have hrun := replMGGo_wordrun t'
        (fun d hd => wordCh_of_alnum (ha d (List.mem_cons_of_mem _ hd))) r n (by omega)
      by_cases hc : Char.toLower c = 'm'
      · rw [if_pos (by simp [hc])]
        have hnm' : ¬(t'.map Char.toLower = ['g']) := by
          intro he
          exact hnm (by simp [he, hc])
        rw [mgAfter_tok_none (fun d hd => ha d (List.mem_cons_of_mem _ hd)) hsep hnm']
        rw [hwc, hrun]
      · rw [if_neg (by simp [hc])]
        rw [hwc, hrun]

theorem replMGGo_match_tok :
    ∀ (t : List Char), t.map Char.toLower = ['m', 'g'] →
    ∀ (r : List Char), sepR r → ∀ (f : Nat), (t ++ r).length < f →
    replMGGo f false (t ++ r) = 'M' :: 'G' :: replMGGo (r.length + 1) true r := by
  intro t hm r hsep f hf
  cases t with
  | nil => simp at hm
  | cons c t' =>
    simp only [List.map_cons, List.cons.injEq] at hm
    cases f with
    | zero => simp at hf
    | succ n =>
      simp only [List.length_append, List.length_cons] at hf
      simp only [List.cons_append, replMGGo, Bool.not_false, Bool.true_and,
        List.append_eq]
      rw [if_pos (by simp [hm.1])]
      rw [mgAfter_tok_match hm.2 hsep]
      show 'M' :: 'G' :: replMGGo n true r = _
      rw [replMGGo_fuel n r (r.length + 1) true (by omega) (by omega)]

/-- Per-token model of the MG replacement. -/
def tokMG (t : List Char) : List Char :=
  if t.map Char.toLower = ['m', 'g'] then ['M', 'G'] else t

/-- The MG pass acts tokenwise on a join of word tokens. -/
theorem replMGCh_joinSp :
    ∀ (vs : List (List Char)), goodToks vs →
    replMGCh (joinSp vs) = joinSp (vs.map tokMG) := by
  intro vs
  induction vs with
  | nil => intro _; rfl
  | cons t vs' ih =>
    intro hg
    have hgt : goodTok t := hg t (List.mem_cons_self _ _)
    cases vs' with
    | nil =>
      simp only [joinSp, List.map_cons, List.map_nil]
      rw [show replMGCh t = replMGGo (t.length + 1) false (t ++ []) from by
        simp [replMGCh]]
      by_cases hm : t.map Char.toLower = ['m', 'g']
      · rw [replMGGo_match_tok t hm [] (Or.inl rfl) _ (by simp)]
        simp [tokMG, hm, replMGGo]
      · rw [replMGGo_skip_tok t hgt hm [] (Or.inl rfl) _ (by simp)]
        simp [tokMG, hm, replMGGo]
    | cons v vs'' =>
      rw [joinSp_cons_cons]
      set J := joinSp (v :: vs'') with hJ
      have hsep : sepR (' ' :: J) := Or.inr rfl
      have hstep := replMGGo_sep_step J ((' ' :: J).length + 1) (by simp)
      have hrest : replMGGo (J.length + 1) false J = replMGCh J := by simp [replMGCh]
      by_cases hm : t.map Char.toLower = ['m', 'g']
      · rw [show replMGCh (t ++ ' ' :: J) =
            replMGGo ((t ++ ' ' :: J).length + 1) false (t ++ ' ' :: J) from rfl]
        rw [replMGGo_match_tok t hm (' ' :: J) hsep _ (by omega)]
        rw [hstep, hrest, ih (fun u hu => hg u (List.mem_cons_of_mem _ hu))]
        simp only [List.map_cons, joinSp_cons_cons, tokMG, hm, if_pos]
        simp
      · rw [show replMGCh (t ++ ' ' :: J) =
            replMGGo ((t ++ ' ' :: J).length + 1) false (t ++ ' ' :: J) from rfl]
        rw [replMGGo_skip_tok t hgt hm (' ' :: J) hsep _ (by omega)]
        rw [hstep, hrest, ih (fun u hu => hg u (List.mem_cons_of_mem _ hu))]
        simp only [List.map_cons, joinSp_cons_cons, tokMG, hm, if_neg]
        simp [tokMG, hm]

/-! ### Composing the passes: the token normal form -/

/-- Per-token composition of the eight abbreviation replacements. -/
def tokReps (t : List Char) : List Char :=
  abbrevRules.foldl (fun v pr => tokRep pr.1 pr.2 v) t

/-- Per-token model of the whole post-split pipeline. -/
def tokNorm (t : List Char) : List Char :=
  tokMG (tokReps (titleWord t))

/-- Well-formedness of a replacement rule: non-empty lowercase-letter
pattern, non-empty alphanumeric replacement. -/
def ruleWF (pr : List Char × List Char) : Prop :=
  pr.1 ≠ [] ∧ lowPat pr.1 ∧ goodTok pr.2

theorem abbrevRules_wf : ∀ pr ∈ abbrevRules, ruleWF pr := by
  intro pr hpr
  fin_cases hpr <;>
    refine ⟨by decide, ?_, by constructor <;> decide⟩ <;>
      (intro x hx; fin_cases hx <;> decide)

theorem goodTok_tokRep {pat rep t : List Char} (hr : goodTok rep) (ht : goodTok t) :
    goodTok (tokRep pat rep t) := by
  rw [tokRep]
  split
  · exact hr
  · exact ht

theorem goodTok_tokMG {t : List Char} (ht : goodTok t) : goodTok (tokMG t) := by
  rw [tokMG]
  split
  · exact ⟨by decide, by intro c hc; fin_cases hc <;> decide⟩
  · exact ht

theorem goodTok_titleWord {t : List Char} (ht : goodTok t) : goodTok (titleWord t) := by
  obtain ⟨hne, ha⟩ := ht
  rw [titleWord.eq_def]
  split
  · exact ⟨hne, ha⟩
  · cases t with
    | nil => exact absurd rfl hne
    | cons c r =>
      refine ⟨by simp, ?_⟩
      intro d hd
      rcases List.mem_cons.mp hd with h | h
      · subst h
        exact alnum_toUpper (ha c (List.mem_cons_self _ _))
      · obtain ⟨e, he, hrfl⟩ := List.mem_map.mp h
        subst hrfl
        exact alnum_toLower (ha e (List.mem_cons_of_mem _ he))

theorem goodTok_foldReps {rs : List (List Char × List Char)}
    (hwf : ∀ pr ∈ rs, ruleWF pr) {t : List Char} (ht : goodTok t) :
    goodTok (rs.foldl (fun v pr => tokRep pr.1 pr.2 v) t) := by
  induction rs generalizing t with
  | nil => exact ht
  | cons pr rs' ih =>
    rw [List.foldl_cons]
    exact ih (fun q hq => hwf q (List.mem_cons_of_mem _ hq))
      (goodTok_tokRep (hwf pr (List.mem_cons_self _ _)).2.2 ht)

theorem goodTok_tokNorm {t : List Char} (ht : goodTok t) : goodTok (tokNorm t) :=
  goodTok_tokMG (goodTok_foldReps abbrevRules_wf (goodTok_titleWord ht))

theorem replWordCh_nil (pat rep : List Char) : replWordCh pat rep [] = [] := by
  cases pat with
  | nil => rfl
  | cons p0 ps => rfl

/-- The abbreviation passes act tokenwise on a join of word tokens. -/
theorem foldPass_joinSp : ∀ (rs : List (List Char × List Char)),
    (∀ pr ∈ rs, ruleWF pr) → ∀ (vs : List (List Char)), goodToks vs →
    rs.foldl (fun acc pr => replWordCh pr.1 pr.2 acc) (joinSp vs) =
      joinSp (vs.map (fun t => rs.foldl (fun v pr => tokRep pr.1 pr.2 v) t)) := by
  intro rs
  induction rs with
  | nil =>
    intro _ vs _
    simp
  | cons pr rs' ih =>
    intro hwf vs hg
    obtain ⟨pat, rep⟩ := pr
    have hwf0 := hwf (pat, rep) (List.mem_cons_self _ _)
    simp only [List.foldl_cons]
    cases pat with
    | nil => exact absurd rfl hwf0.1
    | cons q qs =>
      rw [replWordCh_joinSp hwf0.2.1 vs hg]
      rw [ih (fun u hu => hwf u (List.mem_cons_of_mem _ hu)) _
        (fun u hu => by
          obtain ⟨t, ht, hrfl⟩ := List.mem_map.mp hu
          exact hrfl ▸ goodTok_tokRep hwf0.2.2 (hg t ht))]
      rw [List.map_map]
      rfl

/-! ### Identity of the early stages on canonical strings -/

theorem noDblSp_tail {a : Char} {l : List Char} (h : noDblSp (a :: l)) : noDblSp l :=
  (noDblSp_cons.mp h).2

theorem noDblSp_of_no_space {l : List Char} (h : ∀ c ∈ l, spaceCh c = false) :
    noDblSp l := by
  induction l with
  | nil => trivial
  | cons c rest ih =>
    rw [noDblSp_cons]
    refine ⟨fun b hb hsb => ?_, ih (fun d hd => h d (List.mem_cons_of_mem _ hd))⟩
    rw [h c (List.mem_cons_self _ _)] at hsb
    exact absurd hsb.1 (by simp)

theorem noDblSp_append {a b : List Char} (ha : noDblSp a) (hb : noDblSp b)
    (hj : ∀ x y, a.getLast? = some x → b.head? = some y →
      ¬(spaceCh x = true ∧ spaceCh y = true)) : noDblSp (a ++ b) := by
  induction a with
  | nil => simpa
  | cons c a' ih =>
    rw [List.cons_append, noDblSp_cons]
    constructor
    · intro d hd hsd
      cases a' with
      | nil =>
        simp only [List.nil_append] at hd
        exact hj c d rfl hd hsd
      | cons e a'' =>
        simp only [List.cons_append, List.head?_cons, Option.some.injEq] at hd
        subst hd
        exact (noDblSp_cons.mp ha).1 e rfl hsd
    · refine ih (noDblSp_tail ha) ?_
      intro x y hx hy
      cases a' with
      | nil => simp at hx
      | cons e a'' =>
        refine hj x y ?_ hy
        rw [List.getLast?_cons_cons]
        exact hx

theorem getLast?_mem_tok {t : List Char} (h : t ≠ []) :
    ∃ c, t.getLast? = some c ∧ c ∈ t := by
  refine ⟨t.getLast h, List.getLast?_eq_getLast t h, List.getLast_mem h⟩

/-- A join of alphanumeric tokens has no double whitespace. -/
theorem joinSp_noDblSp {vs : List (List Char)} (hg : goodToks vs) :
    noDblSp (joinSp vs) := by
  induction vs with
  | nil => trivial
  | cons t vs' ih =>
    have hgt := hg t (List.mem_cons_self _ _)
    cases vs' with
    | nil =>
      exact noDblSp_of_no_space (fun c hc => not_space_of_alnum (hgt.2 c hc))
    | cons v vs'' =>
      rw [joinSp_cons_cons]
      refine noDblSp_append
        (noDblSp_of_no_space (fun c hc => not_space_of_alnum (hgt.2 c hc))) ?_ ?_
      · rw [noDblSp_cons]
        refine ⟨fun b hb hsb => ?_, ih (fun u hu => hg u (List.mem_cons_of_mem _ hu))⟩
        have hgv := hg v (List.mem_cons_of_mem _ (List.mem_cons_self _ _))
        obtain ⟨c0, hc0⟩ : ∃ c0, v.head? = some c0 := by
          cases v with
          | nil => exact absurd rfl hgv.1
          | cons c0 v' => exact ⟨c0, rfl⟩
        have := @joinSp_head? (v :: vs'') v c0 rfl hc0
        rw [this] at hb
        have hbc : c0 = b := Option.some_inj.mp hb
        subst hbc
        have : spaceCh c0 = false :=
          not_space_of_alnum (hgv.2 c0 (by
            cases v with
            | nil => simp at hc0
            | cons d v' =>
              simp only [List.head?_cons, Option.some.injEq] at hc0
              exact hc0 ▸ List.mem_cons_self _ _))
        rw [this] at hsb
        exact absurd hsb.2 (by simp)
      · intro x y hx hy hsp
        obtain ⟨c, hc, hcm⟩ := getLast?_mem_tok hgt.1
        rw [hc] at hx
        have hxc : c = x := Option.some_inj.mp hx
        subst hxc
        rw [not_space_of_alnum (hgt.2 c hcm)] at hsp
        exact absurd hsp.1 (by simp)

theorem dropWhile_eq_self {p : Char → Bool} {l : List Char}
    (h : ∀ c, l.head? = some c → p c = false) : l.dropWhile p = l := by
  cases l with
  | nil => rfl
  | cons c rest =>
    rw [List.dropWhile_cons, if_neg (by simp [h c rfl])]

theorem trim_eq_self {l : List Char}
    (h1 : ∀ c, l.head? = some c → spaceCh c = false)
    (h2 : ∀ c, l.getLast? = some c → spaceCh c = false) : trimChars l = l := by
  rw [trimChars, dropWhile_eq_self h1, dropWhile_eq_self (by
    intro c hc
    rw [List.head?_reverse] at hc
    exact h2 c hc)]
  exact List.reverse_reverse l

theorem stripTrailComma_eq_self {l : List Char} (h : ',' ∉ l) :
    stripTrailComma l = l := by
  rw [stripTrailComma]
  cases hd : (l.reverse).dropWhile spaceCh with
  | nil => rfl
  | cons c rest =>
    have hc : c ∈ l := by
      have : c ∈ (l.reverse).dropWhile spaceCh := by rw [hd]; exact List.mem_cons_self _ _
      have := List.dropWhile_subset (l := l.reverse) spaceCh this
      rwa [List.mem_reverse] at this
    split
    · rename_i heq
      injection heq with h1 h2
      subst h1
      exact absurd hc h
    · rfl

theorem getLast?_mem_of_ne_nil {α : Type} {l : List α} (h : l ≠ []) :
    ∃ a, l.getLast? = some a ∧ a ∈ l :=
  ⟨l.getLast h, List.getLast?_eq_getLast l h, List.getLast_mem h⟩

/-- Under no leading/trailing/double whitespace (with only `' '` as
whitespace), every `split(' ')` token is non-empty. -/
theorem splitSp_tok_ne_nil : ∀ (n : Nat) (u : List Char), u.length ≤ n → u ≠ [] →
    (∀ c, u.head? = some c → spaceCh c = false) →
    (∀ c, u.getLast? = some c → spaceCh c = false) →
    noDblSp u → (∀ c ∈ u, spaceCh c = true → c = ' ') →
    ∀ t ∈ splitSp u, t ≠ [] := by
  intro n
  induction n with
  | zero =>
    intro u hlen hne _ _ _ _
    cases u with
    | nil => exact absurd rfl hne
    | cons c rest => simp at hlen
  | succ n ih =>
    intro u hlen hne hh hl hdbl hsp t ht
    cases u with
    | nil => exact absurd rfl hne
    | cons c rest =>
      have hc : c ≠ ' ' := by
        intro he
        subst he
        exact absurd (hh ' ' rfl) (by simp [spaceCh])
      rw [splitSp, if_neg hc] at ht
      cases rest with
      | nil =>
        simp only [splitSp] at ht
        rcases List.mem_cons.mp ht with h | h
        · subst h; simp
        · simp at h
      | cons d r2 =>
        by_cases hd : d = ' '
        · subst hd
          rw [splitSp] at ht
          rw [if_pos rfl] at ht
          rcases List.mem_cons.mp ht with h | h
          · subst h; simp
          · have hr2 : r2 ≠ [] := by
              intro hnil
              subst hnil
              exact absurd (hl ' ' rfl) (by simp [spaceCh])
            refine ih r2 (by simp at hlen; omega) hr2 ?_ ?_ ?_ ?_ t h
            · intro e he
              by_contra hcon
              rw [Bool.not_eq_false] at hcon
              exact ((noDblSp_cons.mp (noDblSp_tail hdbl)).1 e he)
                ⟨by simp [spaceCh], hcon⟩
            · intro e he
              refine hl e ?_
              cases r2 with
              | nil => exact absurd rfl hr2
              | cons x xs =>
                rw [List.getLast?_cons_cons, List.getLast?_cons_cons]
                exact he
            · exact noDblSp_tail (noDblSp_tail hdbl)
            · exact fun e he hse => hsp e (by simp [he]) hse
        · have hdsp : spaceCh d = false := by
            by_contra hcon
            rw [Bool.not_eq_false] at hcon
            exact hd (hsp d (by simp) hcon)
          cases hsp2 : splitSp (d :: r2) with
          | nil => exact absurd hsp2 (splitSp_ne_nil _)
          | cons t' ts' =>
            rw [hsp2] at ht
            rcases List.mem_cons.mp ht with h | h
            · subst h; simp
            · refine ih (d :: r2) (by simp at hlen ⊢; omega) (by simp) ?_ ?_
                (noDblSp_tail hdbl) (fun e he hse => hsp e (by simp [he]) hse) t ?_
              · intro e he
                simp only [List.head?_cons, Option.some.injEq] at he
                exact he ▸ hdsp
              · intro e he
                rw [← List.getLast?_cons_cons (a := c)] at he
                exact hl e he
              · rw [hsp2]
                exact List.mem_cons_of_mem _ h

theorem foldPass_nil (rs : List (List Char × List Char)) :
    rs.foldl (fun acc pr => replWordCh pr.1 pr.2 acc) [] = [] := by
  induction rs with
  | nil => rfl
  | cons pr rs' ih =>
    rw [List.foldl_cons, replWordCh_nil]
    exact ih

/-- The eight abbreviation passes in sequence. -/
def passFold (l : List Char) : List Char :=
  abbrevRules.foldl (fun acc pr => replWordCh pr.1 pr.2 acc) l

theorem tokNorm_eq (t : List Char) :
    tokNorm t =
      tokMG (abbrevRules.foldl (fun v pr => tokRep pr.1 pr.2 v) (titleWord t)) := rfl

/-- The post-split pipeline applied to a ready token list. -/
def pipeTail2 (vs : List (List Char)) : List Char :=
  replMGCh (passFold (stripTrailComma (joinSp (vs.map titleWord))))

/-- The pipeline from the `split(' ')` stage on. -/
def pipeTail (u : List Char) : List Char :=
  pipeTail2 (splitSp u)

theorem normChars_eq_pipeTail {s : List Char} (h : s ≠ []) :
    normChars s =
      pipeTail (collRuns spaceCh ' ' false
        (collRuns (fun c => c = ',') ',' false (trimChars s))) := by
  rw [normChars, if_neg h]
  rfl

/-- The whole post-split pipeline (title-casing already applied) acts
tokenwise. -/
theorem tailStages {vs : List (List Char)} (hg : goodToks vs) :
    pipeTail2 vs = joinSp (vs.map tokNorm) := by
  have hg1 : goodToks (vs.map titleWord) := by
    intro u hu
    obtain ⟨t, ht, hrfl⟩ := List.mem_map.mp hu
    exact hrfl ▸ goodTok_titleWord (hg t ht)
  have hnc : ',' ∉ joinSp (vs.map titleWord) := by
    intro hm
    rcases mem_joinSp hm with h | ⟨t, ht, hct⟩
    · exact absurd h (by decide)
    · have := (hg1 t ht).2 ',' hct
      simp [alnumCh] at this
  have e1 := stripTrailComma_eq_self hnc
  have e2 := foldPass_joinSp abbrevRules abbrevRules_wf _ hg1
  have e3 := replMGCh_joinSp
    ((vs.map titleWord).map (fun t => abbrevRules.foldl (fun v pr => tokRep pr.1 pr.2 v) t))
    (by
      intro u hu
      obtain ⟨w, hw, hrfl⟩ := List.mem_map.mp hu
      obtain ⟨t, ht, hrfl2⟩ := List.mem_map.mp hw
      subst hrfl hrfl2
      exact goodTok_foldReps abbrevRules_wf (goodTok_titleWord (hg t ht)))
  calc pipeTail2 vs
      = replMGCh (passFold (joinSp (vs.map titleWord))) :=
        congrArg (fun l => replMGCh (passFold l)) e1
    _ = replMGCh (joinSp ((vs.map titleWord).map
          (fun t => abbrevRules.foldl (fun v pr => tokRep pr.1 pr.2 v) t))) :=
        congrArg replMGCh e2
    _ = joinSp (((vs.map titleWord).map
          (fun t => abbrevRules.foldl (fun v pr => tokRep pr.1 pr.2 v) t)).map tokMG) := e3
    _ = joinSp (vs.map tokNorm) := by
        rw [List.map_map, List.map_map]
        refine congrArg joinSp (List.map_congr_left ?_)
        intro t _
        simp only [Function.comp_apply]
        exact (tokNorm_eq t).symm

/-- `normChars` acts tokenwise on a join of word tokens. -/
theorem normChars_joinSp {vs : List (List Char)} (hg : goodToks vs) :
    normChars (joinSp vs) = joinSp (vs.map tokNorm) := by
  cases vs with
  | nil => rfl
  | cons t0 vs' =>
    have hgt0 : goodTok t0 := hg t0 (List.mem_cons_self _ _)
    have hne : joinSp (t0 :: vs') ≠ [] := joinSp_ne_nil rfl hgt0.1
    obtain ⟨c0, hc0⟩ : ∃ c0, t0.head? = some c0 := by
      cases t0 with
      | nil => exact absurd rfl hgt0.1
      | cons c0 t0' => exact ⟨c0, rfl⟩
    have hc0m : c0 ∈ t0 := by
      cases t0 with
      | nil => simp at hc0
      | cons d t0' =>
        simp only [List.head?_cons, Option.some.injEq] at hc0
        exact hc0 ▸ List.mem_cons_self _ _
    have hhead : (joinSp (t0 :: vs')).head? = some c0 := joinSp_head? rfl hc0
    obtain ⟨tl, htl, htlm⟩ := @getLast?_mem_of_ne_nil (List Char) (t0 :: vs') (by simp)
    have hgtl : goodTok tl := hg tl htlm
    obtain ⟨cl, hcl, hclm⟩ := getLast?_mem_of_ne_nil hgtl.1
    have hlast : (joinSp (t0 :: vs')).getLast? = some cl := joinSp_getLast? htl hcl
    have hmem : ∀ c ∈ joinSp (t0 :: vs'), c = ' ' ∨ alnumCh c = true := by
      intro c hcm
      rcases mem_joinSp hcm with h | ⟨t, ht, hct⟩
      · exact Or.inl h
      · exact Or.inr ((hg t ht).2 c hct)
    have e_trim : trimChars (joinSp (t0 :: vs')) = joinSp (t0 :: vs') :=
      trim_eq_self
        (fun c hc => by
          rw [hhead] at hc
          have : c0 = c := Option.some_inj.mp hc
          subst this
          exact not_space_of_alnum (hgt0.2 c0 hc0m))
        (fun c hc => by
          rw [hlast] at hc
          have : cl = c := Option.some_inj.mp hc
          subst this
          exact not_space_of_alnum (hgtl.2 cl hclm))
    have e_comma : collRuns (fun c => c = ',') ',' false (joinSp (t0 :: vs')) =
        joinSp (t0 :: vs') :=
      collRuns_eq_self
        (fun c hcm => by
          rcases hmem c hcm with h | h
          · subst h; decide
          · have := ne_comma_of_alnum h
            simpa using this) false
    have e_ws : collRuns spaceCh ' ' false (joinSp (t0 :: vs')) = joinSp (t0 :: vs') :=
      collRuns_id_of_sep _ false (joinSp_noDblSp hg)
        (fun c hcm hsc => by
          rcases hmem c hcm with h | h
          · exact h
          · rw [not_space_of_alnum h] at hsc
            exact absurd hsc (by simp))
        (fun hfalse => by simp at hfalse)
    have e_split : splitSp (joinSp (t0 :: vs')) = t0 :: vs' :=
      splitSp_joinSp (by simp)
        (fun t ht c hct => by
          have := (hg t ht).2 c hct
          intro he
          subst he
          simp [alnumCh] at this)
    rw [normChars_eq_pipeTail hne, e_trim, e_comma, e_ws]
    rw [show pipeTail (joinSp (t0 :: vs')) = pipeTail2 (splitSp (joinSp (t0 :: vs')))
      from rfl]
    rw [e_split]
    exact tailStages hg

/-- The predicate the restricted idempotence results quantify over. -/
def okStr (s : List Char) : Prop := ∀ c ∈ s, okCh c = true

/-- The tokens the normalizer effectively operates on for an `okStr`
input: split the whitespace-collapsed trim. -/
def wordToks (s : List Char) : List (List Char) :=
  let u := collRuns spaceCh ' ' false (trimChars s)
  if u = [] then [] else splitSp u

theorem wordToks_facts {s : List Char} (hok : okStr s)
    (hu : collRuns spaceCh ' ' false (trimChars s) ≠ []) :
    (∀ c, (collRuns spaceCh ' ' false (trimChars s)).head? = some c → spaceCh c = false) ∧
    (∀ c, (collRuns spaceCh ' ' false (trimChars s)).getLast? = some c → spaceCh c = false) ∧
    (∀ c ∈ collRuns spaceCh ' ' false (trimChars s), okCh c = true) := by
  have htne : trimChars s ≠ [] := by
    intro h
    rw [h] at hu
    exact hu rfl
  obtain ⟨c0, hc0⟩ : ∃ c0, (trimChars s).head? = some c0 := by
    cases h : trimChars s with
    | nil => exact absurd h htne
    | cons c0 l' => exact ⟨c0, rfl⟩
  obtain ⟨cl, hcl, _⟩ := getLast?_mem_of_ne_nil htne
  have hc0s := trim_head? hc0
  have hcls := trim_getLast? hcl
  refine ⟨?_, ?_, ?_⟩
  · intro c hc
    rw [collRuns_head? hc0 hc0s] at hc
    have : c0 = c := Option.some_inj.mp hc
    exact this ▸ hc0s
  · intro c hc
    rw [collRuns_getLast? hcl hcls] at hc
    have : cl = c := Option.some_inj.mp hc
    exact this ▸ hcls
  · intro c hc
    rcases mem_collRuns hc with h | h
    · exact hok c (mem_trim h)
    · subst h; decide

theorem wordToks_good {s : List Char} (hok : okStr s) : goodToks (wordToks s) := by
  rw [wordToks]
  split
  · intro t ht
    simp at ht
  · rename_i hu
    intro t ht
    obtain ⟨hh, hl, hok2⟩ := wordToks_facts hok hu
    constructor
    · exact splitSp_tok_ne_nil _ _ (Nat.le_refl _) hu hh hl
        (collRuns_noDblSp _ _)
        (fun c hc hsc => (okCh_space_iff (hok2 c hc)).mp hsc) t ht
    · intro c hct
      exact okCh_alnum_of_not_space (hok2 c (mem_of_mem_splitSp ht hct))
        (ne_space_of_mem_splitSp ht hct)

/-- On letters/digits/spaces, `normChars` is the tokenwise normal form. -/
theorem normChars_ok {s : List Char} (hok : okStr s) :
    normChars s = joinSp ((wordToks s).map tokNorm) := by
  by_cases hs : s = []
  · subst hs
    rfl
  · have hcomma : collRuns (fun c => c = ',') ',' false (trimChars s) = trimChars s := by
      refine collRuns_eq_self (fun c hc => ?_) false
      have := hok c (mem_trim hc)
      rcases Bool.or_eq_true _ _ |>.mp this with h | h
      · simpa using ne_comma_of_alnum h
      · have : c = ' ' := of_decide_eq_true h
        subst this
        decide
    rw [normChars_eq_pipeTail hs, hcomma]
    rw [wordToks]
    split
    · rename_i hu
      rw [hu]
      decide
    · rename_i hu
      have hg : goodToks (splitSp (collRuns spaceCh ' ' false (trimChars s))) := by
        have := wordToks_good hok
        rw [wordToks] at this
        rwa [if_neg hu] at this
      exact tailStages hg

/-! ### Idempotence of the per-token pipeline -/

theorem titleWord_idem (t : List Char) : titleWord (titleWord t) = titleWord t := by
  by_cases hc : t.length ≤ 3 ∧ t = t.map Char.toUpper
  · have h1 : titleWord t = t := by rw [titleWord.eq_def, if_pos hc]
    rw [h1]
    exact h1
  · cases t with
    | nil => exact absurd ⟨by simp, by simp⟩ hc
    | cons c r =>
      have h1 : titleWord (c :: r) = Char.toUpper c :: r.map Char.toLower := by
        rw [titleWord.eq_def, if_neg hc]
      rw [h1]
      by_cases hc2 : (Char.toUpper c :: r.map Char.toLower).length ≤ 3 ∧
          (Char.toUpper c :: r.map Char.toLower) =
            (Char.toUpper c :: r.map Char.toLower).map Char.toUpper
      · rw [titleWord.eq_def, if_pos hc2]
      · rw [titleWord.eq_def, if_neg hc2]
        show Char.toUpper (Char.toUpper c) :: (r.map Char.toLower).map Char.toLower =
          Char.toUpper c :: r.map Char.toLower
        rw [toUpper_toUpper, List.map_map]
        refine congrArg _ (List.map_congr_left ?_)
        intro e _
        simp only [Function.comp_apply]
        exact toLower_toLower e

theorem tokRep_cases (pat rep t : List Char) :
    tokRep pat rep t = t ∨ tokRep pat rep t = rep := by
  rw [tokRep]
  split
  · exact Or.inr rfl
  · exact Or.inl rfl

theorem tokMG_cases (t : List Char) : tokMG t = t ∨ tokMG t = ['M', 'G'] := by
  rw [tokMG]
  split
  · exact Or.inr rfl
  · exact Or.inl rfl

/-- The values a fired replacement fold can produce: fold the remaining
rules over the fired rule's replacement. -/
def allTails : List (List Char × List Char) → List (List Char)
  | [] => []
  | pr :: rs2 => rs2.foldl (fun v pr => tokRep pr.1 pr.2 v) pr.2 :: allTails rs2

theorem foldReps_mem : ∀ (rs : List (List Char × List Char)) (t : List Char),
    rs.foldl (fun v pr => tokRep pr.1 pr.2 v) t = t ∨
      rs.foldl (fun v pr => tokRep pr.1 pr.2 v) t ∈ allTails rs := by
  intro rs
  induction rs with
  | nil => intro t; left; rfl
  | cons pr rs2 ih =>
    intro t
    rw [List.foldl_cons]
    rcases tokRep_cases pr.1 pr.2 t with h | h
    · rw [h]
      rcases ih t with h2 | h2
      · left; exact h2
      · right; rw [allTails]; exact List.mem_cons_of_mem _ h2
    · rw [h]
      right
      rw [allTails]
      exact List.mem_cons_self _ _

/-- The possible replaced tokens of the eight concrete rules. -/
def words8 : List (List Char) :=
  ["Road".data, "Street".data, "Avenue".data, "Boulevard".data,
   "Drive".data, "Lane".data, "Court".data, "Place".data]

theorem allTails_abbrev : allTails abbrevRules = words8 := by decide

theorem tokReps_or (v : List Char) : tokReps v = v ∨ tokReps v ∈ words8 := by
  have h := foldReps_mem abbrevRules v
  rw [allTails_abbrev] at h
  exact h

theorem tokNorm_of_reps_word {t w : List Char}
    (h : tokReps (titleWord t) = w) (hw : w ∈ words8) :
    tokNorm (tokNorm t) = tokNorm t := by
  have h1 : tokMG w = w := by fin_cases hw <;> decide
  have hv : tokNorm t = w := by
    calc tokNorm t = tokMG (tokReps (titleWord t)) := rfl
      _ = tokMG w := by rw [h]
      _ = w := h1
  rw [hv]
  fin_cases hw <;> decide

/-- The per-token pipeline is idempotent. -/
theorem tokNorm_idem (t : List Char) : tokNorm (tokNorm t) = tokNorm t := by
  rcases tokReps_or (titleWord t) with h | h
  · rcases tokMG_cases (titleWord t) with h2 | h2
    · have hv : tokNorm t = titleWord t := by
        calc tokNorm t = tokMG (tokReps (titleWord t)) := rfl
          _ = tokMG (titleWord t) := by rw [h]
          _ = titleWord t := h2
      rw [hv]
      calc tokNorm (titleWord t) = tokMG (tokReps (titleWord (titleWord t))) := rfl
        _ = tokMG (tokReps (titleWord t)) := by rw [titleWord_idem]
        _ = tokMG (titleWord t) := by rw [h]
        _ = titleWord t := h2
    · have hv : tokNorm t = ['M', 'G'] := by
        calc tokNorm t = tokMG (tokReps (titleWord t)) := rfl
          _ = tokMG (titleWord t) := by rw [h]
          _ = ['M', 'G'] := h2
      rw [hv]
      decide
  · exact tokNorm_of_reps_word rfl h

/-- Restricted idempotence of the normalizer (letters, digits, spaces). -/
theorem normChars_idem {s : List Char} (hok : okStr s) :
    normChars (normChars s) = normChars s := by
  rw [normChars_ok hok]
  have hg : goodToks ((wordToks s).map tokNorm) := by
    intro u hu
    obtain ⟨t, ht, hrfl⟩ := List.mem_map.mp hu
    exact hrfl ▸ goodTok_tokNorm (wordToks_good hok t ht)
  rw [normChars_joinSp hg]
  rw [List.map_map]
  refine congrArg joinSp (List.map_congr_left ?_)
  intro t _
  simp only [Function.comp_apply]
  exact tokNorm_idem t

/-- String-level restricted idempotence. -/
theorem normalize_idem_ok {s : String} (hok : ∀ c ∈ s.data, okCh c = true) :
    normalizeStreetName (normalizeStreetName s) = normalizeStreetName s := by
  show String.mk (normChars (normChars s.data)) = String.mk (normChars s.data)
  exact congrArg String.mk (normChars_idem hok)
/-! ## Properties of `calculateDistance` over the reals -/

theorem haverA_symm (a b : LocationCoordinates) : haverA a b = haverA b a := by
  rw [haverA, haverA]
  have hlat : (a.latitude - b.latitude) * Real.pi / 180 / 2 =
      -((b.latitude - a.latitude) * Real.pi / 180 / 2) := by ring
  have hlon : (a.longitude - b.longitude) * Real.pi / 180 / 2 =
      -((b.longitude - a.longitude) * Real.pi / 180 / 2) := by ring
  simp only [hlat, hlon, Real.sin_neg]
  ring

theorem calculateDistance_symm (a b : LocationCoordinates) :
    calculateDistance a b = calculateDistance b a := by
  rw [calculateDistance, calculateDistance, haverA_symm]

theorem haverA_self (a : LocationCoordinates) : haverA a a = 0 := by
  rw [haverA]
  have h1 : (a.latitude - a.latitude) * Real.pi / 180 / 2 = 0 := by ring
  have h2 : (a.longitude - a.longitude) * Real.pi / 180 / 2 = 0 := by ring
  rw [h1, h2, Real.sin_zero]
  ring

theorem atanTwo_zero_one : atanTwo 0 1 = 0 := by
  rw [atanTwo, if_pos (show (0:ℝ) < 1 by norm_num), zero_div]
  exact Real.arctan_zero

theorem calculateDistance_of_haverA_zero {a b : LocationCoordinates}
    (h : haverA a b = 0) : calculateDistance a b = 0 := by
  rw [calculateDistance, h]
  rw [show (1 : ℝ) - 0 = 1 by ring]
  rw [Real.sqrt_zero, Real.sqrt_one, atanTwo_zero_one]
  ring

theorem calculateDistance_self (a : LocationCoordinates) :
    calculateDistance a a = 0 :=
  calculateDistance_of_haverA_zero (haverA_self a)

theorem haverA_full_turn : haverA ⟨0, 0, none⟩ ⟨0, 360, none⟩ = 0 := by
  rw [haverA]
  simp only
  have h1 : ((0 : ℝ) - 0) * Real.pi / 180 / 2 = 0 := by ring
  have h2 : ((360 : ℝ) - 0) * Real.pi / 180 / 2 = Real.pi := by ring
  rw [h1, h2, Real.sin_zero, Real.sin_pi]
  ring

/-! ## Claim theorems -/

/-- Claim C1, counterexample: normalization is not idempotent on all
strings — `"a ,"` normalizes to `"A "` (trailing space), which normalizes
again to `"A"`. -/
theorem claimC1_counterexample :
    normalizeStreetName (normalizeStreetName "a ,") ≠ normalizeStreetName "a ," := by
  decide

/-- Claim C1 (amended): the normalization pipeline (trim, collapse commas
and whitespace, selective Title Case, strip trailing comma, abbreviation
expansion, in the stated order) is idempotent on every string made of
ASCII letters, digits and spaces; on arbitrary strings idempotence fails
(see the counterexample). -/
theorem claimC1_normalize_idempotent_on_alnum_space (s : String)
    (h : ∀ c ∈ s.data, alnumCh c = true ∨ c = ' ') :
    normalizeStreetName (normalizeStreetName s) = normalizeStreetName s := by
  refine normalize_idem_ok (fun c hc => ?_)
  rcases h c hc with h' | h'
  · simp [okCh, h']
  · simp [okCh, h']

/-- Witness for C1's amended theorem at the input `"123 main st"`. -/
theorem claimC1_witness :
    (∀ c ∈ ("123 main st" : String).data, alnumCh c = true ∨ c = ' ') ∧
      normalizeStreetName (normalizeStreetName "123 main st") =
        normalizeStreetName "123 main st" :=
  ⟨by decide, claimC1_normalize_idempotent_on_alnum_space "123 main st" (by decide)⟩

/-- Claim C3, counterexample: the spec's example outputs are not what the
code produces — `"OAK   AVE"` keeps the short all-caps token `"OAK"`, and
`"123 main st."` keeps the house number. -/
theorem claimC3_counterexample :
    ¬(normalizeStreetName "OAK   AVE" = "Oak Avenue" ∧
      normalizeStreetName "123 main st." = "Main Street") := by
  decide

/-- Claim C3 (amended): the code maps `"OAK   AVE"` to `"OAK Avenue"`
(tokens of length ≤ 3 that are already all-uppercase are preserved) and
`"123 main st."` to `"123 Main Street"` (house numbers are not stripped). -/
theorem claimC3_examples :
    normalizeStreetName "OAK   AVE" = "OAK Avenue" ∧
      normalizeStreetName "123 main st." = "123 Main Street" := by
  decide
/-- Claim C9, counterexample: the distance is not zero only for equal
coordinate pairs — latitudes 0/0 with longitudes 0 and 360 are distinct
coordinates at haversine distance 0. -/
theorem claimC9_counterexample :
    calculateDistance ⟨0, 0, none⟩ ⟨0, 360, none⟩ = 0 ∧
      (⟨0, 0, none⟩ : LocationCoordinates) ≠ ⟨0, 360, none⟩ := by
  constructor
  · exact calculateDistance_of_haverA_zero haverA_full_turn
  · intro h
    have := congrArg LocationCoordinates.longitude h
    simp only at this
    norm_num at this

/-- Claim C9 (amended): `calculateDistance` is the haversine great-circle
distance with Earth radius 6371 km; it is symmetric and zero on equal
coordinates, but it can also be zero on distinct coordinate pairs whose
angular differences are full turns (see the counterexample). -/
theorem claimC9_distance_symm_and_self :
    (∀ a b : LocationCoordinates, calculateDistance a b = calculateDistance b a) ∧
      (∀ a : LocationCoordinates, calculateDistance a a = 0) :=
  ⟨calculateDistance_symm, calculateDistance_self⟩

/-- Claim C5: `validateManualLocation` accepts exactly when the trimmed
street has length ≥ 3 and the trimmed city has length ≥ 2; the street rule
is checked first and only the first violated rule's message is returned,
with the two exact messages; the three boundary examples behave as
stated. -/
theorem claimC5_validateManualLocation :
    (∀ streetName city : String,
      validateManualLocation streetName city =
        (if (trimChars streetName.data).length < 3 then
          ⟨false, some "Please enter a valid street name (minimum 3 characters)"⟩
         else if (trimChars city.data).length < 2 then
          ⟨false, some "Please enter a valid city name"⟩
         else ⟨true, none⟩)) ∧
    (∀ streetName city : String,
      (validateManualLocation streetName city).valid = true ↔
        3 ≤ (trimChars streetName.data).length ∧ 2 ≤ (trimChars city.data).length) ∧
    validateManualLocation "ab" "City" =
      ⟨false, some "Please enter a valid street name (minimum 3 characters)"⟩ ∧
    validateManualLocation "Oak Avenue" "S" =
      ⟨false, some "Please enter a valid city name"⟩ ∧
    validateManualLocation "Oak Avenue" "SF" = ⟨true, none⟩ := by
  have hchar : ∀ streetName city : String,
      validateManualLocation streetName city =
        (if (trimChars streetName.data).length < 3 then
          ⟨false, some "Please enter a valid street name (minimum 3 characters)"⟩
         else if (trimChars city.data).length < 2 then
          ⟨false, some "Please enter a valid city name"⟩
         else ⟨true, none⟩) := by
    intro streetName city
    rw [validateManualLocation]
    have hs : (String.mk (trimChars streetName.data) = "" ∨
        (String.mk (trimChars streetName.data)).length < 3) ↔
        (trimChars streetName.data).length < 3 := by
      constructor
      · rintro (h | h)
        · have : trimChars streetName.data = [] := by
            have := congrArg String.data h
            simpa using this
          simp [this]
        · exact h
      · exact fun h => Or.inr h
    have hc : (String.mk (trimChars city.data) = "" ∨
        (String.mk (trimChars city.data)).length < 2) ↔
        (trimChars city.data).length < 2 := by
      constructor
      · rintro (h | h)
        · have : trimChars city.data = [] := by
            have := congrArg String.data h
            simpa using this
          simp [this]
        · exact h
      · exact fun h => Or.inr h
    by_cases h1 : (trimChars streetName.data).length < 3
    · rw [if_pos (hs.mpr h1), if_pos h1]
    · rw [if_neg (fun hcon => h1 (hs.mp hcon)), if_neg h1]
      by_cases h2 : (trimChars city.data).length < 2
      · rw [if_pos (hc.mpr h2), if_pos h2]
      · rw [if_neg (fun hcon => h2 (hc.mp hcon)), if_neg h2]
  refine ⟨hchar, ?_, by decide, by decide, by decide⟩
  intro streetName city
  rw [hchar]
  by_cases h1 : (trimChars streetName.data).length < 3
  · rw [if_pos h1]
    simp only
    constructor
    · intro h
      simp at h
    · intro ⟨h, _⟩
      omega
  · rw [if_neg h1]
    by_cases h2 : (trimChars city.data).length < 2
    · rw [if_pos h2]
      simp only
      constructor
      · intro h
        simp at h
      · intro ⟨_, h⟩
        omega
    · rw [if_neg h2]
      simp only
      constructor
      · intro _
        omega
      · intro _
        trivial

/-- Claim C6: `getCurrentLocation` fails immediately with `unsupported`
when the capability is absent — independently of any platform outcome, so
no platform call is consulted — and otherwise maps platform error code 1
to `permission-denied`, code 3 to `timeout`, and code 2 like every other
code to the generic `error` state. -/
theorem claimC6_getCurrentLocation :
    (∀ o o2 : PositionOutcome, getCurrentLocation false o = getCurrentLocation false o2) ∧
    (∀ o : PositionOutcome, getCurrentLocation false o = ⟨none, some .unsupported⟩) ∧
    (∀ code : Nat, getCurrentLocation true (.err code) =
      ⟨none, some (if code = 1 then .permissionDenied
                   else if code = 3 then .timeout
                   else .error)⟩) := by
  refine ⟨fun o o2 => rfl, fun o => rfl, fun code => rfl⟩
/-! ### Branch lemmas for `detectLocation` -/

theorem detectLocation_unsupported (po : PositionOutcome) (f : FetchOutcome) :
    detectLocation false po f =
      ⟨none, some (getErrorMessage .unsupported), .unsupported⟩ := rfl

theorem detectLocation_err (code : Nat) (f : FetchOutcome) :
    detectLocation true (.err code) f =
      ⟨none,
       some (getErrorMessage (if code = 1 then .permissionDenied
                              else if code = 3 then .timeout else .error)),
       (if code = 1 then .permissionDenied
        else if code = 3 then .timeout else .error)⟩ := by
  by_cases h1 : code = 1
  · subst h1; rfl
  · by_cases h3 : code = 3
    · subst h3; rfl
    · rw [if_neg h1, if_neg h3]
      rw [detectLocation]
      simp only [getCurrentLocation, Bool.not_true, Bool.false_eq_true, if_false,
        if_neg h1, if_neg h3]
      rfl

theorem detectLocation_pos (la lo acc : ℝ) (f : FetchOutcome) :
    detectLocation true (.pos la lo acc) f =
      (if truthyO (reverseGeocode f).error || (reverseGeocode f).data.isNone then
        ⟨none,
         some (if truthyO (reverseGeocode f).error then (reverseGeocode f).error.getD ""
               else "Failed to determine address"),
         .geocodingFailed⟩
       else
        match (reverseGeocode f).data with
        | none => ⟨none, some "Failed to determine address", .geocodingFailed⟩
        | some addr => ⟨some ⟨⟨la, lo, some acc⟩, addr, .auto⟩, none, .success⟩) := rfl

/-- The effective street value of `reverseGeocode`'s success check
(`s2` in the source: the extraction result, rescued by the
building/suburb-or-neighbourhood fallback when empty). -/
def street2 (a : RawAddress) : String :=
  if extractStreetName a = "" then
    (if 0 < (truthyVals [a.building, orT a.suburb a.neighbourhood]).length then
      normalizeStreetName (joinSpStr (truthyVals [a.building, orT a.suburb a.neighbourhood]))
     else extractStreetName a)
  else extractStreetName a

theorem reverseGeocode_some (a : RawAddress) (disp : Option String) :
    reverseGeocode (.resp ⟨true, some a, disp⟩) =
      (if street2 a = "" then
        ⟨none, some "Unable to identify street name from location. Please enter manually."⟩
       else
        ⟨some ⟨normalizeStreetName (street2 a), normalizeStreetName (cityOf a),
               a.state, a.postcode, disp⟩, none⟩) := rfl

/-- Claim C10: each of `getCurrentLocation`, `reverseGeocode` and
`detectLocation` returns exactly one of a non-null `data` and a non-null
`error`, and `detectLocation`'s state is `success` exactly when its data
is non-null. -/
theorem claimC10_exclusivity :
    (∀ (supported : Bool) (o : PositionOutcome),
      ((getCurrentLocation supported o).data ≠ none ∧
        (getCurrentLocation supported o).error = none) ∨
      ((getCurrentLocation supported o).data = none ∧
        (getCurrentLocation supported o).error ≠ none)) ∧
    (∀ f : FetchOutcome,
      ((reverseGeocode f).data ≠ none ∧ (reverseGeocode f).error = none) ∨
      ((reverseGeocode f).data = none ∧ (reverseGeocode f).error ≠ none)) ∧
    (∀ (supported : Bool) (po : PositionOutcome) (f : FetchOutcome),
      ((detectLocation supported po f).data ≠ none ∧
        (detectLocation supported po f).error = none) ∨
      ((detectLocation supported po f).data = none ∧
        (detectLocation supported po f).error ≠ none)) ∧
    (∀ (supported : Bool) (po : PositionOutcome) (f : FetchOutcome),
      (detectLocation supported po f).state = .success ↔
        (detectLocation supported po f).data ≠ none) := by
  have hgeo : ∀ f : FetchOutcome,
      ((reverseGeocode f).data ≠ none ∧ (reverseGeocode f).error = none) ∨
      ((reverseGeocode f).data = none ∧ (reverseGeocode f).error ≠ none) := by
    intro f
    cases f with
    | thrown b m => exact Or.inr ⟨rfl, by simp [reverseGeocode]⟩
    | resp r =>
      obtain ⟨ok, addr, disp⟩ := r
      cases ok with
      | false => exact Or.inr ⟨rfl, by simp [reverseGeocode]⟩
      | true =>
        cases addr with
        | none => exact Or.inr ⟨rfl, by simp [reverseGeocode]⟩
        | some a =>
          rw [reverseGeocode_some]
          by_cases h : street2 a = ""
          · rw [if_pos h]
            exact Or.inr ⟨rfl, by simp⟩
          · rw [if_neg h]
            exact Or.inl ⟨by simp, rfl⟩
  have hdet : ∀ (supported : Bool) (po : PositionOutcome) (f : FetchOutcome),
      (((detectLocation supported po f).data ≠ none ∧
        (detectLocation supported po f).error = none) ∨
      ((detectLocation supported po f).data = none ∧
        (detectLocation supported po f).error ≠ none)) ∧
      ((detectLocation supported po f).state = .success ↔
        (detectLocation supported po f).data ≠ none) := by
    intro supported po f
    cases supported with
    | false =>
      rw [detectLocation_unsupported]
      exact ⟨Or.inr ⟨rfl, by simp⟩, by simp⟩
    | true =>
      cases po with
      | err code =>
        rw [detectLocation_err]
        refine ⟨Or.inr ⟨rfl, by simp⟩, ?_⟩
        constructor
        · intro h
          by_cases h1 : code = 1 <;> by_cases h3 : code = 3 <;> simp_all
        · intro h
          simp at h
      | pos la lo acc =>
        rw [detectLocation_pos]
        split
        · exact ⟨Or.inr ⟨rfl, by simp⟩, by simp⟩
        · rename_i hcond
          cases hd : (reverseGeocode f).data with
          | none => simp [hd] at hcond
          | some addr =>
            simp only [hd]
            constructor
            · refine Or.inl ⟨?_, ?_⟩ <;> simp
            · simp
  refine ⟨?_, hgeo, fun s po f => (hdet s po f).1, fun s po f => (hdet s po f).2⟩
  intro supported o
  cases supported with
  | false => exact Or.inr ⟨rfl, by simp [getCurrentLocation]⟩
  | true =>
    cases o with
    | pos la lo acc => exact Or.inl ⟨by simp [getCurrentLocation], rfl⟩
    | err code => exact Or.inr ⟨rfl, by simp [getCurrentLocation]⟩
/-- Claim C7: `reverseGeocode` fails on a non-2xx response with message
"Geocoding service unavailable", on a response without an address object
with "No address found for this location"; a thrown exception is caught
and converted to an error result (an `Error`'s message, otherwise a fixed
fallback text) rather than propagating; and `detectLocation` maps every
`reverseGeocode` failure to the `geocoding-failed` state. -/
theorem claimC7_geocode_failures :
    (∀ r : GeoResponse, r.ok = false →
      reverseGeocode (.resp r) = ⟨none, some "Geocoding service unavailable"⟩) ∧
    (∀ r : GeoResponse, r.ok = true → r.address = none →
      reverseGeocode (.resp r) = ⟨none, some "No address found for this location"⟩) ∧
    (∀ (isError : Bool) (msg : String),
      reverseGeocode (.thrown isError msg) =
        ⟨none, some (if isError then msg else "Failed to get address from location")⟩) ∧
    (∀ f : FetchOutcome, (reverseGeocode f).data = none →
      (reverseGeocode f).error ≠ none) ∧
    (∀ (la lo acc : ℝ) (f : FetchOutcome), (reverseGeocode f).data = none →
      (detectLocation true (.pos la lo acc) f).state = .geocodingFailed) := by
  refine ⟨?_, ?_, ?_, ?_, ?_⟩
  · intro r hok
    obtain ⟨ok, addr, disp⟩ := r
    cases hok
    rfl
  · intro r hok haddr
    obtain ⟨ok, addr, disp⟩ := r
    cases hok
    cases haddr
    rfl
  · intro isError msg
    rfl
  · intro f hdata
    cases f with
    | thrown b m => simp [reverseGeocode]
    | resp r =>
      obtain ⟨ok, addr, disp⟩ := r
      cases ok with
      | false => simp [reverseGeocode]
      | true =>
        cases addr with
        | none => simp [reverseGeocode]
        | some a =>
          rw [reverseGeocode_some] at hdata ⊢
          by_cases h : street2 a = ""
          · rw [if_pos h]
            simp
          · rw [if_neg h] at hdata
            simp at hdata
  · intro la lo acc f hdata
    rw [detectLocation_pos]
    rw [if_pos (by simp [hdata])]

/-- Witness for C7 at a non-2xx response and at its propagation into
`detectLocation`. -/
theorem claimC7_witness :
    reverseGeocode (.resp ⟨false, none, none⟩) =
      ⟨none, some "Geocoding service unavailable"⟩ ∧
    (detectLocation true (.pos 0 0 0) (.resp ⟨false, none, none⟩)).state =
      .geocodingFailed :=
  ⟨claimC7_geocode_failures.1 ⟨false, none, none⟩ rfl,
   claimC7_geocode_failures.2.2.2.2 0 0 0 (.resp ⟨false, none, none⟩) rfl⟩
/-! ### The caller's state trace (C8) -/

/-- Progress measure on states: `idle` before `detecting`/`requesting`,
then `geocoding`, then the terminal states. -/
def stateRank : LocationState → Nat
  | .idle => 0
  | .requestingPermission => 1
  | .detecting => 1
  | .geocoding => 2
  | _ => 3

theorem detect_state_rank (supported : Bool) (po : PositionOutcome) (f : FetchOutcome) :
    stateRank (detectLocation supported po f).state = 3 := by
  cases supported with
  | false => rw [detectLocation_unsupported]; rfl
  | true =>
    cases po with
    | err code =>
      rw [detectLocation_err]
      simp only []
      split
      · rfl
      · split <;> rfl
    | pos la lo acc =>
      rw [detectLocation_pos]
      split
      · rfl
      · rename_i hcond
        cases hd : (reverseGeocode f).data with
        | none => simp [hd] at hcond
        | some addr =>
          simp only [hd]
          rfl

theorem detect_success_form (supported : Bool) (po : PositionOutcome) (f : FetchOutcome)
    (h : (detectLocation supported po f).data ≠ none) :
    (detectLocation supported po f).error = none ∧
      (detectLocation supported po f).state = .success := by
  cases supported with
  | false => rw [detectLocation_unsupported] at h ⊢; simp at h
  | true =>
    cases po with
    | err code => rw [detectLocation_err] at h ⊢; simp at h
    | pos la lo acc =>
      rw [detectLocation_pos] at h ⊢
      by_cases hcond : (truthyO (reverseGeocode f).error ||
          (reverseGeocode f).data.isNone) = true
      · rw [if_pos hcond] at h
        simp at h
      · rw [if_neg hcond] at h ⊢
        cases hd : (reverseGeocode f).data with
        | none => simp [hd] at hcond
        | some addr =>
          exact ⟨rfl, rfl⟩

theorem trace_shape (supported : Bool) (po : PositionOutcome) (f : FetchOutcome) :
    ∃ st, requestLocationTrace supported po f = [.idle, .detecting, st] ∧
      stateRank st = 3 := by
  rw [requestLocationTrace]
  refine ⟨_, rfl, ?_⟩
  split
  · exact detect_state_rank supported po f
  · rfl

/-- Claim C8 (amended): the `'geocoding'` state is never entered — a
successful run visits exactly `idle → detecting → success`, a permission
denial visits `idle → detecting → permission-denied`, and the state rank
strictly increases along every trace (no regression). -/
theorem claimC8_state_sequence :
    (∀ (supported : Bool) (po : PositionOutcome) (f : FetchOutcome),
      LocationState.geocoding ∉ requestLocationTrace supported po f) ∧
    (∀ (supported : Bool) (po : PositionOutcome) (f : FetchOutcome),
      (detectLocation supported po f).data ≠ none →
      requestLocationTrace supported po f = [.idle, .detecting, .success]) ∧
    (∀ f : FetchOutcome,
      requestLocationTrace true (.err 1) f = [.idle, .detecting, .permissionDenied]) ∧
    (∀ (supported : Bool) (po : PositionOutcome) (f : FetchOutcome),
      List.Chain' (fun a b => stateRank a < stateRank b)
        (requestLocationTrace supported po f)) := by
  refine ⟨?_, ?_, ?_, ?_⟩
  · intro supported po f hmem
    obtain ⟨st, he, hr⟩ := trace_shape supported po f
    rw [he] at hmem
    rcases List.mem_cons.mp hmem with h | h
    · exact absurd h (by decide)
    · rcases List.mem_cons.mp h with h2 | h2
      · exact absurd h2 (by decide)
      · rcases List.mem_cons.mp h2 with h3 | h3
        · rw [← h3] at hr
          simp [stateRank] at hr
        · simp at h3
  · intro supported po f h
    obtain ⟨herr, hst⟩ := detect_success_form supported po f h
    rw [requestLocationTrace]
    simp only [herr]
    rw [if_neg]
    simp only [truthyO, Option.isNone_iff_eq_none, Bool.or_eq_true, decide_eq_true_eq]
    push_neg
    exact ⟨by simp, fun hcon => absurd hcon h⟩
  · intro f
    rfl
  · intro supported po f
    obtain ⟨st, he, hr⟩ := trace_shape supported po f
    rw [he]
    refine List.chain'_cons.mpr ⟨by decide, List.chain'_cons.mpr ⟨?_, List.chain'_singleton st⟩⟩
    rw [hr]
    decide

/-- A geocoder response carrying `road = "MG Road"`, `city = "Bengaluru"`. -/
def mgFetch : FetchOutcome :=
  .resp ⟨true, some { road := some "MG Road", city := some "Bengaluru" }, none⟩

/-- Claim C8, counterexample: a successful run's trace is
`idle → detecting → success` — the claimed `geocoding` step never
occurs. -/
theorem claimC8_counterexample :
    (detectLocation true (.pos 0 0 0) mgFetch).data.isSome = true ∧
    requestLocationTrace true (.pos 0 0 0) mgFetch = [.idle, .detecting, .success] ∧
    ([.idle, .detecting, .success] : List LocationState) ≠
      [.idle, .detecting, .geocoding, .success] := by
  refine ⟨rfl, rfl, by decide⟩

/-- Witness for C8's success clause at the concrete successful run. -/
theorem claimC8_witness :
    requestLocationTrace true (.pos 0 0 0) mgFetch = [.idle, .detecting, .success] :=
  claimC8_state_sequence.2.1 true (.pos 0 0 0) mgFetch
    (Option.ne_none_iff_isSome.mpr rfl)
/-- Claim C4, counterexample: an address whose only populated field is
`building` defeats the claim "empty extraction implies failure" — the
extraction is empty, yet `reverseGeocode` succeeds through the
building fallback. -/
theorem claimC4_counterexample :
    extractStreetName ({ building := some "Tower" } : RawAddress) = "" ∧
    (reverseGeocode (.resp ⟨true, some { building := some "Tower" }, none⟩)).data.isSome
      = true ∧
    (reverseGeocode (.resp ⟨true, some { building := some "Tower" }, none⟩)).error
      = none := by
  exact ⟨by decide, rfl, rfl⟩

/-- Claim C4 (amended): street extraction tries road, street, pedestrian,
footway, path, highway in this order, returning the normalization of the
first truthy one, and otherwise the normalized join of the truthy
neighbourhood/suburb/district fields (empty when the join is empty); when
the extraction is empty `reverseGeocode` additionally tries the truthy
building and (suburb or neighbourhood) fields, and it fails — with a
message containing "Unable to identify street name", propagated by
`detectLocation` as `geocoding-failed` — exactly when that rescue is also
empty. -/
theorem claimC4_street_extraction :
    (∀ a : RawAddress,
      extractStreetName a =
        (if truthyO a.road then normalizeStreetName (a.road.getD "")
         else if truthyO a.street then normalizeStreetName (a.street.getD "")
         else if truthyO a.pedestrian then normalizeStreetName (a.pedestrian.getD "")
         else if truthyO a.footway then normalizeStreetName (a.footway.getD "")
         else if truthyO a.path then normalizeStreetName (a.path.getD "")
         else if truthyO a.highway then normalizeStreetName (a.highway.getD "")
         else if joinSpStr (truthyVals [a.neighbourhood, a.suburb, a.district]) ≠ "" then
           normalizeStreetName (joinSpStr (truthyVals [a.neighbourhood, a.suburb, a.district]))
         else "")) ∧
    (∀ a : RawAddress,
      street2 a = "" ↔
        extractStreetName a = "" ∧
          (truthyVals [a.building, orT a.suburb a.neighbourhood] = [] ∨
            normalizeStreetName
              (joinSpStr (truthyVals [a.building, orT a.suburb a.neighbourhood])) = "")) ∧
    (∀ (a : RawAddress) (disp : Option String),
      (reverseGeocode (.resp ⟨true, some a, disp⟩)).error =
          some ("Unable to identify street name" ++ " from location. Please enter manually.")
        ↔ street2 a = "") ∧
    (∀ (la lo acc : ℝ) (a : RawAddress) (disp : Option String), street2 a = "" →
      (detectLocation true (.pos la lo acc) (.resp ⟨true, some a, disp⟩)).state =
          .geocodingFailed ∧
        (detectLocation true (.pos la lo acc) (.resp ⟨true, some a, disp⟩)).error =
          some ("Unable to identify street name" ++ " from location. Please enter manually.")) := by
  have hmsg : ("Unable to identify street name" ++ " from location. Please enter manually.")
      = "Unable to identify street name from location. Please enter manually." := by decide
  refine ⟨?_, ?_, ?_, ?_⟩
  · intro a
    rw [extractStreetName]
    by_cases h1 : truthyO a.road = true
    · simp [List.find?, h1]
    · rw [Bool.not_eq_true] at h1
      by_cases h2 : truthyO a.street = true
      · simp [List.find?, h1, h2]
      · rw [Bool.not_eq_true] at h2
        by_cases h3 : truthyO a.pedestrian = true
        · simp [List.find?, h1, h2, h3]
        · rw [Bool.not_eq_true] at h3
          by_cases h4 : truthyO a.footway = true
          · simp [List.find?, h1, h2, h3, h4]
          · rw [Bool.not_eq_true] at h4
            by_cases h5 : truthyO a.path = true
            · simp [List.find?, h1, h2, h3, h4, h5]
            · rw [Bool.not_eq_true] at h5
              by_cases h6 : truthyO a.highway = true
              · simp [List.find?, h1, h2, h3, h4, h5, h6]
              · rw [Bool.not_eq_true] at h6
                simp only [List.find?, h1, h2, h3, h4, h5, h6]
                split <;> simp
  · intro a
    rw [street2]
    by_cases he : extractStreetName a = ""
    · rw [if_pos he]
      by_cases hl : 0 < (truthyVals [a.building, orT a.suburb a.neighbourhood]).length
      · rw [if_pos hl]
        constructor
        · intro h
          exact ⟨he, Or.inr h⟩
        · rintro ⟨-, h | h⟩
          · rw [h] at hl
            simp at hl
          · exact h
      · rw [if_neg hl]
        constructor
        · intro _
          refine ⟨he, Or.inl ?_⟩
          cases hv : truthyVals [a.building, orT a.suburb a.neighbourhood] with
          | nil => rfl
          | cons x xs => rw [hv] at hl; simp at hl
        · intro _
          exact he
    · rw [if_neg he]
      constructor
      · intro h
        exact absurd h he
      · rintro ⟨h, -⟩
        exact absurd h he
  · intro a disp
    rw [reverseGeocode_some]
    by_cases h : street2 a = ""
    · rw [if_pos h]
      simp only [Option.some.injEq]
      constructor
      · intro _
        exact h
      · intro _
        rw [hmsg]
    · rw [if_neg h]
      simp only []
      constructor
      · intro hcon
        simp at hcon
      · intro hcon
        exact absurd hcon h
  · intro la lo acc a disp h
    rw [detectLocation_pos, reverseGeocode_some, if_pos h]
    rw [if_pos (by simp [truthyO])]
    constructor
    · rfl
    · simp only [truthyO]
      rw [if_pos (by simp)]
      simp [hmsg]

/-- Witness for C4's failure clause: an entirely empty raw address makes
`detectLocation` fail as `geocoding-failed` with the "Unable to identify
street name…" message. -/
theorem claimC4_witness :
    (detectLocation true (.pos 0 0 0) (.resp ⟨true, some {}, none⟩)).state =
        .geocodingFailed ∧
      (detectLocation true (.pos 0 0 0) (.resp ⟨true, some {}, none⟩)).error =
        some ("Unable to identify street name" ++ " from location. Please enter manually.") :=
  claimC4_street_extraction.2.2.2 0 0 0 {} none (by decide)
/-! ## Tame geocoder inputs (letters/digits/spaces) for the C2 invariant -/

/-- A street-side optional field is tame when, if present, it consists of
ASCII letters, digits and spaces only. -/
def tameOpt : Option String → Bool
  | none => true
  | some s => s.data.all okCh

/-- A city-side optional field is tame when, if present, it consists of
letters/digits/spaces and, if non-empty, contains at least one
letter or digit. -/
def tameCity : Option String → Bool
  | none => true
  | some s => s.data.all okCh && (s.data.isEmpty || s.data.any alnumCh)

/-- All fields consumed by the street/city extraction are tame. -/
def tameAddr (a : RawAddress) : Bool :=
  tameOpt a.road && tameOpt a.street && tameOpt a.pedestrian &&
  tameOpt a.footway && tameOpt a.path && tameOpt a.highway &&
  tameOpt a.neighbourhood && tameOpt a.suburb && tameOpt a.district &&
  tameOpt a.building && tameCity a.city && tameCity a.town &&
  tameCity a.village && tameCity a.municipality && tameCity a.county

/-- A fetch outcome whose decoded address, if any, is tame. -/
def tameFetch : FetchOutcome → Bool
  | .thrown _ _ => true
  | .resp g =>
    match g.address with
    | none => true
    | some a => tameAddr a

theorem tameAddr_parts {a : RawAddress} (h : tameAddr a = true) :
    tameOpt a.road = true ∧ tameOpt a.street = true ∧ tameOpt a.pedestrian = true ∧
    tameOpt a.footway = true ∧ tameOpt a.path = true ∧ tameOpt a.highway = true ∧
    tameOpt a.neighbourhood = true ∧ tameOpt a.suburb = true ∧ tameOpt a.district = true ∧
    tameOpt a.building = true ∧ tameCity a.city = true ∧ tameCity a.town = true ∧
    tameCity a.village = true ∧ tameCity a.municipality = true ∧ tameCity a.county = true := by
  simp only [tameAddr, Bool.and_eq_true, and_assoc] at h
  exact h

theorem tameOpt_okStr {o : Option String} {s : String} (ht : tameOpt o = true)
    (he : o = some s) : ∀ c ∈ s.data, okCh c = true := by
  subst he
  exact fun c hc => List.all_eq_true.mp ht c hc

theorem tameCity_str {o : Option String} (ht : tameCity o = true)
    (htr : truthyO o = true) :
    (∀ c ∈ (o.getD "").data, okCh c = true) ∧
      ∃ c ∈ (o.getD "").data, alnumCh c = true := by
  cases o with
  | none => simp [truthyO] at htr
  | some s =>
    have ht' : (s.data.all okCh && (s.data.isEmpty || s.data.any alnumCh)) = true := ht
    rw [Bool.and_eq_true] at ht'
    obtain ⟨h1, h2⟩ := ht'
    have hs : s ≠ "" := by simpa [truthyO] using htr
    have hd : s.data ≠ [] := by
      intro h
      apply hs
      cases s with
      | mk l => simp at h; subst h; rfl
    rw [Bool.or_eq_true] at h2
    have h2' : s.data.any alnumCh = true := by
      rcases h2 with h | h
      · exact absurd (by simpa using h) hd
      · exact h
    refine ⟨fun c hc => List.all_eq_true.mp h1 c hc, ?_⟩
    simpa [List.any_eq_true] using h2'

theorem normalize_ne_empty {s : String}
    (hok : ∀ c ∈ s.data, okCh c = true)
    (ha : ∃ c ∈ s.data, alnumCh c = true) :
    normalizeStreetName s ≠ "" := by
  obtain ⟨c, hc, hca⟩ := ha
  have hcs : spaceCh c = false := not_space_of_alnum hca
  have hct : c ∈ trimChars s.data := mem_trim_of_not_space hc hcs
  have htne : trimChars s.data ≠ [] := by
    intro h
    rw [h] at hct
    simp at hct
  have hu : collRuns spaceCh ' ' false (trimChars s.data) ≠ [] := by
    cases hl : trimChars s.data with
    | nil => exact absurd hl htne
    | cons d rest =>
      show collRuns spaceCh ' ' false (d :: rest) ≠ []
      simp only [collRuns]
      split <;> simp
  have hemp_ne : normChars s.data ≠ [] := by
    rw [normChars_ok hok]
    have hg : goodToks (wordToks s.data) := wordToks_good hok
    simp only [wordToks] at hg ⊢
    rw [if_neg hu] at hg ⊢
    cases hsp : splitSp (collRuns spaceCh ' ' false (trimChars s.data)) with
    | nil => exact absurd hsp (splitSp_ne_nil _)
    | cons t ts =>
      have ht : goodTok (tokNorm t) :=
        goodTok_tokNorm (hg t (by rw [hsp]; exact List.mem_cons_self _ _))
      exact joinSp_ne_nil (by simp : ((t :: ts).map tokNorm).head? = some (tokNorm t)) ht.1
  intro h
  exact hemp_ne (congrArg String.data h)

theorem mem_truthyVals {l : List (Option String)} {s : String}
    (h : s ∈ truthyVals l) : some s ∈ l ∧ s ≠ "" := by
  rw [truthyVals] at h
  obtain ⟨o, ho, hog⟩ := List.mem_map.mp h
  have hof := List.mem_filter.mp ho
  cases o with
  | none => simp [truthyO] at hof
  | some t =>
    have he : t = s := by simpa using hog
    subst he
    refine ⟨hof.1, ?_⟩
    have := hof.2
    simpa [truthyO] using this

theorem okStr_joinSpStr {l : List String}
    (h : ∀ s ∈ l, ∀ c ∈ s.data, okCh c = true) :
    ∀ c ∈ (joinSpStr l).data, okCh c = true := by
  intro c hc
  have hc' : c ∈ joinSp (l.map String.data) := hc
  rcases mem_joinSp hc' with h' | ⟨t, ht, hct⟩
  · subst h'
    decide
  · obtain ⟨s, hs, rfl⟩ := List.mem_map.mp ht
    exact h s hs c hct

theorem fb_okStr {a : RawAddress} (hnb : tameOpt a.neighbourhood = true)
    (hsub : tameOpt a.suburb = true) (hdist : tameOpt a.district = true) :
    ∀ c ∈ (joinSpStr (truthyVals [a.neighbourhood, a.suburb, a.district])).data,
      okCh c = true := by
  apply okStr_joinSpStr
  intro s hs
  obtain ⟨ho, -⟩ := mem_truthyVals hs
  rcases List.mem_cons.mp ho with h | h
  · exact tameOpt_okStr hnb h.symm
  · rcases List.mem_cons.mp h with h' | h'
    · exact tameOpt_okStr hsub h'.symm
    · rcases List.mem_cons.mp h' with h'' | h''
      · exact tameOpt_okStr hdist h''.symm
      · simp at h''

theorem comps_okStr {a : RawAddress} (hbld : tameOpt a.building = true)
    (hsub : tameOpt a.suburb = true) (hnb : tameOpt a.neighbourhood = true) :
    ∀ c ∈ (joinSpStr (truthyVals [a.building, orT a.suburb a.neighbourhood])).data,
      okCh c = true := by
  apply okStr_joinSpStr
  intro s hs
  obtain ⟨ho, -⟩ := mem_truthyVals hs
  rcases List.mem_cons.mp ho with h | h
  · exact tameOpt_okStr hbld h.symm
  · rcases List.mem_cons.mp h with h' | h'
    · rw [orT] at h'
      by_cases ht : truthyO a.suburb = true
      · rw [if_pos ht] at h'
        exact tameOpt_okStr hsub h'.symm
      · rw [if_neg ht] at h'
        exact tameOpt_okStr hnb h'.symm
    · simp at h'

theorem extract_norm_fixed {a : RawAddress} (hta : tameAddr a = true) :
    normalizeStreetName (extractStreetName a) = extractStreetName a := by
  obtain ⟨hroad, hstreet, hped, hfoot, hpath, hhw, hnb, hsub, hdist, -, -, -, -, -, -⟩ :=
    tameAddr_parts hta
  rw [extractStreetName]
  cases hf : [a.road, a.street, a.pedestrian, a.footway, a.path, a.highway].find? truthyO with
  | some f =>
    have htr := List.find?_some hf
    have hmem := List.mem_of_find?_eq_some hf
    cases f with
    | none => simp [truthyO] at htr
    | some s =>
      show normalizeStreetName (normalizeStreetName s) = normalizeStreetName s
      have hok : ∀ c ∈ s.data, okCh c = true := by
        simp only [List.mem_cons, List.not_mem_nil, or_false] at hmem
        rcases hmem with h | h | h | h | h | h
        · exact tameOpt_okStr hroad h.symm
        · exact tameOpt_okStr hstreet h.symm
        · exact tameOpt_okStr hped h.symm
        · exact tameOpt_okStr hfoot h.symm
        · exact tameOpt_okStr hpath h.symm
        · exact tameOpt_okStr hhw h.symm
      exact normalize_idem_ok hok
  | none =>
    show normalizeStreetName
        (if joinSpStr (truthyVals [a.neighbourhood, a.suburb, a.district]) ≠ "" then
          normalizeStreetName (joinSpStr (truthyVals [a.neighbourhood, a.suburb, a.district]))
         else "") =
      (if joinSpStr (truthyVals [a.neighbourhood, a.suburb, a.district]) ≠ "" then
        normalizeStreetName (joinSpStr (truthyVals [a.neighbourhood, a.suburb, a.district]))
       else "")
    by_cases hfb : joinSpStr (truthyVals [a.neighbourhood, a.suburb, a.district]) ≠ ""
    · rw [if_pos hfb]
      exact normalize_idem_ok (fb_okStr hnb hsub hdist)
    · rw [if_neg hfb]
      decide

theorem street2_norm_fixed {a : RawAddress} (hta : tameAddr a = true) :
    normalizeStreetName (street2 a) = street2 a := by
  obtain ⟨-, -, -, -, -, -, hnb, hsub, -, hbld, -, -, -, -, -⟩ := tameAddr_parts hta
  rw [street2]
  by_cases he : extractStreetName a = ""
  · rw [if_pos he]
    by_cases hl : 0 < (truthyVals [a.building, orT a.suburb a.neighbourhood]).length
    · rw [if_pos hl]
      exact normalize_idem_ok (comps_okStr hbld hsub hnb)
    · rw [if_neg hl, he]
      decide
  · rw [if_neg he]
    exact extract_norm_fixed hta

theorem city_norm {a : RawAddress} (hta : tameAddr a = true) :
    (∀ c ∈ (cityOf a).data, okCh c = true) ∧
      ∃ c ∈ (cityOf a).data, alnumCh c = true := by
  obtain ⟨-, -, -, -, -, -, -, -, -, -, hcity, htown, hvil, hmun, hcty⟩ := tameAddr_parts hta
  rw [cityOf]
  by_cases h1 : truthyO a.city = true
  · rw [orS, if_pos h1]
    exact tameCity_str hcity h1
  · rw [orS, if_neg h1]
    by_cases h2 : truthyO a.town = true
    · rw [orS, if_pos h2]
      exact tameCity_str htown h2
    · rw [orS, if_neg h2]
      by_cases h3 : truthyO a.village = true
      · rw [orS, if_pos h3]
        exact tameCity_str hvil h3
      · rw [orS, if_neg h3]
        by_cases h4 : truthyO a.municipality = true
        · rw [orS, if_pos h4]
          exact tameCity_str hmun h4
        · rw [orS, if_neg h4]
          by_cases h5 : truthyO a.county = true
          · rw [orS, if_pos h5]
            exact tameCity_str hcty h5
          · rw [orS, if_neg h5]
            exact ⟨by decide, by decide⟩
/-- Claim C2, counterexample: with raw `road = ", ,"` the full claim fails —
`detectLocation` succeeds (the extraction ", " is non-empty so the guard
passes), yet the stored `street_name`, the second normalization
`normalizeStreetName ", "`, is the empty string. -/
theorem claimC2_counterexample :
    (detectLocation true (.pos 0 0 0)
      (.resp ⟨true, some { road := some ", ," }, none⟩)).state = .success ∧
    (detectLocation true (.pos 0 0 0)
      (.resp ⟨true, some { road := some ", ," }, none⟩)).data =
      some ⟨⟨0, 0, some 0⟩, ⟨"", "Unknown City", none, none, none⟩, .auto⟩ := by
  exact ⟨rfl, rfl⟩

/-- Claim C2 (amended): for tame geocoder data — every address field used
by the street/city extraction consisting of ASCII letters, digits and
spaces, city-side fields containing a letter or digit when non-empty —
every `LocationResult` produced by a successful `detectLocation` run has
`source = auto`, and its `street_name` and `city` are non-empty fixed
points of the normalizer.  (Without the tameness restriction the
non-emptiness part is false, as the counterexample shows.) -/
theorem claimC2_success_invariants :
    ∀ (supported : Bool) (po : PositionOutcome) (f : FetchOutcome),
      tameFetch f = true →
      ∀ r : LocationResult, (detectLocation supported po f).data = some r →
        r.source = .auto ∧
        r.address.street_name ≠ "" ∧
        normalizeStreetName r.address.street_name = r.address.street_name ∧
        r.address.city ≠ "" ∧
        normalizeStreetName r.address.city = r.address.city := by
  intro supported po f htame r hr
  cases supported with
  | false =>
    rw [detectLocation_unsupported] at hr
    simp at hr
  | true =>
    cases po with
    | err code =>
      rw [detectLocation_err] at hr
      simp at hr
    | pos la lo acc =>
      rw [detectLocation_pos] at hr
      cases f with
      | thrown isErr msg => simp [reverseGeocode] at hr
      | resp g =>
        obtain ⟨ok, addr, disp⟩ := g
        cases ok with
        | false => simp [reverseGeocode] at hr
        | true =>
          cases addr with
          | none => simp [reverseGeocode] at hr
          | some a =>
            have hta : tameAddr a = true := htame
            rw [reverseGeocode_some] at hr
            by_cases hs : street2 a = ""
            · rw [if_pos hs] at hr
              rw [if_pos (by simp)] at hr
              simp at hr
            · rw [if_neg hs] at hr
              rw [if_neg (by simp [truthyO])] at hr
              have hr2 : some (⟨⟨la, lo, some acc⟩,
                  ⟨normalizeStreetName (street2 a), normalizeStreetName (cityOf a),
                   a.state, a.postcode, disp⟩, .auto⟩ : LocationResult) = some r := hr
              have hrr := Option.some_inj.mp hr2
              subst hrr
              refine ⟨rfl, ?_, ?_, ?_, ?_⟩
              · show normalizeStreetName (street2 a) ≠ ""
                rw [street2_norm_fixed hta]
                exact hs
              · show normalizeStreetName (normalizeStreetName (street2 a)) =
                  normalizeStreetName (street2 a)
                rw [street2_norm_fixed hta]
                exact street2_norm_fixed hta
              · show normalizeStreetName (cityOf a) ≠ ""
                exact normalize_ne_empty (city_norm hta).1 (city_norm hta).2
              · show normalizeStreetName (normalizeStreetName (cityOf a)) =
                  normalizeStreetName (cityOf a)
                exact normalize_idem_ok (city_norm hta).1

/-- Witness for C2 at a concrete tame response: `road = "MG Road"`,
`city = "Bengaluru"` give a successful run whose stored address satisfies
every conjunct. -/
theorem claimC2_witness :
    tameFetch (.resp ⟨true, some { road := some "MG Road", city := some "Bengaluru" },
      none⟩) = true ∧
    (detectLocation true (.pos 12 77 5)
      (.resp ⟨true, some { road := some "MG Road", city := some "Bengaluru" },
        none⟩)).data =
      some ⟨⟨12, 77, some 5⟩, ⟨"MG Road", "Bengaluru", none, none, none⟩, .auto⟩ ∧
    ((⟨⟨12, 77, some 5⟩, ⟨"MG Road", "Bengaluru", none, none, none⟩,
        .auto⟩ : LocationResult).source = .auto ∧
      (⟨⟨12, 77, some 5⟩, ⟨"MG Road", "Bengaluru", none, none, none⟩,
        .auto⟩ : LocationResult).address.street_name ≠ "" ∧
      normalizeStreetName
          (⟨⟨12, 77, some 5⟩, ⟨"MG Road", "Bengaluru", none, none, none⟩,
            .auto⟩ : LocationResult).address.street_name =
        (⟨⟨12, 77, some 5⟩, ⟨"MG Road", "Bengaluru", none, none, none⟩,
          .auto⟩ : LocationResult).address.street_name ∧
      (⟨⟨12, 77, some 5⟩, ⟨"MG Road", "Bengaluru", none, none, none⟩,
        .auto⟩ : LocationResult).address.city ≠ "" ∧
      normalizeStreetName
          (⟨⟨12, 77, some 5⟩, ⟨"MG Road", "Bengaluru", none, none, none⟩,
            .auto⟩ : LocationResult).address.city =
        (⟨⟨12, 77, some 5⟩, ⟨"MG Road", "Bengaluru", none, none, none⟩,
          .auto⟩ : LocationResult).address.city) :=
  ⟨by decide, rfl,
   claimC2_success_invariants true (.pos 12 77 5)
     (.resp ⟨true, some { road := some "MG Road", city := some "Bengaluru" }, none⟩)
     (by decide)
     ⟨⟨12, 77, some 5⟩, ⟨"MG Road", "Bengaluru", none, none, none⟩, .auto⟩ rfl⟩

end WasteReport









